import Mathlib

/-!
# cpp-nio-network-reactor: a shallow embedding

The development follows the three translation units of the repository:

* `socket.cpp`      : the move-only `Socket` handle,
* `reactor.cpp`     : the epoll `Reactor` (handler table, registration, `run`),
* `tcp_server.cpp`  : `TCPServer` (read / transform / buffered write / teardown).

System calls are answered by explicit arguments: read, write and accept
answers come from finite scripts (a script that is used up answers `EAGAIN`,
"would block"), `epoll_ctl` and `fcntl` are answered by functions of the
request, `epoll_wait` by a script of batches.  Every state carries a ghost history of the system
calls issued so far; the histories are never read by the embedded code.
-/

namespace NioReactor

/-! ## Constants of the platform headers (Linux values) -/

/-- The errno value of `EAGAIN` in `<cerrno>`. -/
def EAGAIN : Nat := 11
/-- The errno value of `EWOULDBLOCK`; on Linux it is the same number as `EAGAIN`. -/
def EWOULDBLOCK : Nat := 11
/-- The errno value of `EPIPE`. -/
def EPIPE : Nat := 32
/-- The errno value of `ECONNRESET`. -/
def ECONNRESET : Nat := 104
/-- The errno value of `EEXIST`. -/
def EEXIST : Nat := 17
/-- The errno value of `EINTR`. -/
def EINTR : Nat := 4

/-- The readiness bit `EPOLLIN` of `<sys/epoll.h>`. -/
def EPOLLIN : Nat := 1
/-- The readiness bit `EPOLLOUT`. -/
def EPOLLOUT : Nat := 4
/-- The readiness bit `EPOLLERR`. -/
def EPOLLERR : Nat := 8
/-- The readiness bit `EPOLLHUP`. -/
def EPOLLHUP : Nat := 16
/-- The edge-trigger flag `EPOLLET`, bit 31. -/
def EPOLLET : Nat := 2147483648

/-- The constant `TCPServer::MAX_WRITE_BUFFER_SIZE` of tcp_server.hpp: 64 * 1024. -/
def MAX_WRITE_BUFFER_SIZE : Nat := 64 * 1024
/-- The constant `TCPServer::RESUME_WRITE_BUFFER_SIZE` of tcp_server.hpp: 32 * 1024. -/
def RESUME_WRITE_BUFFER_SIZE : Nat := 32 * 1024

/-! ## `std::unordered_map<int, V>` as an association list with unique use of keys -/

/-- The lookup `m.find(k)`: the value stored under `k`, if any. -/
def mapFind {V : Type} : List (Int × V) → Int → Option V
  | [], _ => none
  | (k', v) :: m, k => if k' = k then some v else mapFind m k

/-- The removal `m.erase(k)`: every entry under `k` is dropped, the rest is untouched. -/
def mapErase {V : Type} : List (Int × V) → Int → List (Int × V)
  | [], _ => []
  | (k', v) :: m, k => if k' = k then mapErase m k else (k', v) :: mapErase m k

/-- The assignment `m[k] = v`: overwrite in place when `k` is present, insert otherwise. -/
def mapAssign {V : Type} : List (Int × V) → Int → V → List (Int × V)
  | [], k, v => [(k, v)]
  | (k', v') :: m, k, v => if k' = k then (k, v) :: m else (k', v') :: mapAssign m k v

/-- A write through the reference `it->second`: the value under `k` becomes `f` of it. -/
def mapUpdate {V : Type} : List (Int × V) → Int → (V → V) → List (Int × V)
  | [], _, _ => []
  | (k', v) :: m, k, f => if k' = k then (k', f v) :: m else (k', v) :: mapUpdate m k f

/-! ## System-call answers and ghost histories -/

/-- The value returned by a system call that reports failure through `-1` and `errno`. -/
structure SysRet where
  ret : Int
  errno : Nat
  deriving DecidableEq, Repr

/-- The three operations of `epoll_ctl`. -/
inductive EpollOp where
  | add
  | mod
  | del
  deriving DecidableEq, Repr

/-- The answers of the OS to `epoll_ctl(epfd, op, fd, events)`. -/
abbrev EpollCtl := EpollOp → Int → Nat → SysRet

/-- One `epoll_ctl` call as recorded in the ghost history: request and answer. -/
structure CtlCall where
  op : EpollOp
  fd : Int
  events : Nat
  res : SysRet
  deriving DecidableEq, Repr

/-- The answer of `read(fd, temp_buf, 4096)`: `ok bs` returns `bs.length` with the
bytes `bs` placed in the scratch buffer (the OS delivers at most 4096 bytes, each a
number below 256), `fail e` returns `-1` with `errno = e`. -/
inductive ReadRes where
  | ok (bs : List Nat)
  | fail (errno : Nat)
  deriving DecidableEq, Repr

/-- The answer of `write(fd, data, size)`: `ok n` returns `n` (the OS reports at most
`size`), `fail e` returns `-1` with `errno = e`. -/
inductive WriteRes where
  | ok (n : Nat)
  | fail (errno : Nat)
  deriving DecidableEq, Repr

/-- One read, write or close call of the server as recorded in the ghost history. The
write entry keeps the whole buffer that was offered to the OS. -/
inductive IoCall where
  | read (fd : Int) (res : ReadRes)
  | write (fd : Int) (buf : List Nat) (res : WriteRes)
  | close (fd : Int)
  deriving DecidableEq, Repr

/-- The C++ exceptions thrown by the code, all of type `std::runtime_error`:
`already_registered fd` carries the message "Handler already registered for fd " followed
by the decimal `fd`; `epoll_wait_failed e` the message "epoll_wait failed: " followed by
`strerror(e)`. The two exceptions of `Socket::setNonBlocking` in socket.cpp are
`get_flags_failed` ("Failed to get socket flags") and `set_flags_failed` ("Failed to set
socket flags"). -/
inductive Exn where
  | already_registered (fd : Int)
  | epoll_wait_failed (errno : Nat)
  | get_flags_failed
  | set_flags_failed
  deriving DecidableEq, Repr

/-! ## socket.cpp -/

/-- The class `Socket`: one data member, the descriptor `m_fd` (`-1`: none). -/
structure Socket where
  m_fd : Int
  deriving DecidableEq, Repr

/-- The accessor `Socket::getFd`. -/
def Socket.getFd (s : Socket) : Int := s.m_fd

/-- The destructor `Socket::~Socket`: the close calls it issues. -/
def Socket.dtor (s : Socket) : List Int :=
  if s.m_fd ≠ -1 then [s.m_fd] else []

/-- A store of `Socket` objects by address, with the history of `close` calls. -/
structure SocketStore where
  obj : Nat → Socket
  closed : List Int

/-- Assignment to the member `m_fd` of the object at address `a`. -/
def SocketStore.setFd (w : SocketStore) (a : Nat) (fd : Int) : SocketStore :=
  { w with obj := fun b => if b = a then ⟨fd⟩ else w.obj b }

/-- The move constructor `Socket::Socket(Socket&& other)` building the object at
`this`: `m_fd(other.m_fd)`, then `other.m_fd = -1`. -/
def SocketStore.moveConstruct (w : SocketStore) (this other : Nat) : SocketStore :=
  let w1 := w.setFd this (w.obj other).m_fd
  w1.setFd other (-1)

/-- The move assignment `Socket::operator=(Socket&& other)` on the object at `this`. -/
def SocketStore.moveAssign (w : SocketStore) (this other : Nat) : SocketStore :=
  if this ≠ other then
    let w1 : SocketStore :=
      if (w.obj this).m_fd ≠ -1 then { w with closed := w.closed ++ [(w.obj this).m_fd] } else w
    let w2 := w1.setFd this (w1.obj other).m_fd
    w2.setFd other (-1)
  else w

/-- The destructor `Socket::~Socket` run on the object at `this`. -/
def SocketStore.destroy (w : SocketStore) (this : Nat) : SocketStore :=
  { w with closed := w.closed ++ (w.obj this).dtor }

/-! ## reactor.cpp -/

/-- The class `Reactor`, with callbacks named by values of `H`. The field `sys` is
ghost: the `epoll_ctl` calls issued through the methods so far. -/
structure Reactor (H : Type) where
  m_epollFd : Int
  m_shutdownFd : Int
  m_handlers : List (Int × H)
  sys : List CtlCall

/-- Issue `epoll_ctl(m_epollFd, op, fd, events)` and record it. -/
def Reactor.epoll_ctl {H : Type} (r : Reactor H) (os : EpollCtl) (op : EpollOp) (fd : Int)
    (events : Nat) : SysRet × Reactor H :=
  (os op fd events, { r with sys := r.sys ++ [⟨op, fd, events, os op fd events⟩] })

/-- The method `Reactor::registerHandler`: the exception thrown, if any, and the reactor
afterwards. -/
def Reactor.registerHandler {H : Type} (r : Reactor H) (os : EpollCtl) (fd : Int)
    (events : Nat) (handler : H) : Except Exn Unit × Reactor H :=
  if (mapFind r.m_handlers fd).isSome then
    (.error (.already_registered fd), r)
  else
    let (a, r1) := r.epoll_ctl os .add fd events
    if a.ret = -1 then
      if a.errno = EEXIST then
        let (b, r2) := r1.epoll_ctl os .mod fd events
        if b.ret = -1 then
          (.ok (), r2)
        else
          (.ok (), r2)
      else
        (.ok (), r1)
    else
      (.ok (), { r1 with m_handlers := mapAssign r1.m_handlers fd handler })

/-- The method `Reactor::unregisterHandler`. -/
def Reactor.unregisterHandler {H : Type} (r : Reactor H) (os : EpollCtl) (fd : Int) :
    Reactor H :=
  let (a, r1) := r.epoll_ctl os .del fd 0
  if a.ret = -1 then
    r1
  else
    { r1 with m_handlers := mapErase r1.m_handlers fd }

/-- The method `Reactor::modifyHandler`. -/
def Reactor.modifyHandler {H : Type} (r : Reactor H) (os : EpollCtl) (fd : Int)
    (events : Nat) : Reactor H :=
  (r.epoll_ctl os .mod fd events).2

/-- One entry of the array filled by `epoll_wait`: the readiness bits and `data.fd`. -/
structure EpollEvent where
  events : Nat
  fd : Int
  deriving DecidableEq, Repr

/-- The answer of `epoll_wait`: `ready evs` returns `nfds = evs.length` with the entries
`evs` in the reported order (the OS reports at most `MAX_EVENTS = 10` of them; nothing
below depends on that bound), `fail e` returns `-1` with `errno = e`. -/
inductive WaitRes where
  | ready (evs : List EpollEvent)
  | fail (errno : Nat)
  deriving DecidableEq, Repr

/-- What `Reactor::run` itself does, as recorded in the ghost trace: a readiness wait
with its answer, the draining read of the shutdown descriptor, the invocation of a stored
callback (with the flag telling whether the callback threw). -/
inductive RunEv (H : Type) where
  | wait (res : WaitRes)
  | drain (fd : Int)
  | invoke (fd : Int) (events : Nat) (h : H) (threw : Bool)
  deriving DecidableEq, Repr

/-- The meaning of the stored callbacks: called as `h(fd, events)` on the current handler
table and the state `U` of the rest of the program, a callback leaves a new handler table
and a new `U` (it may register and unregister handlers), and either returns (`false`) or
throws (`true`). The members `m_epollFd` and `m_shutdownFd` are private and written by
the constructor only, so no callback changes them. -/
abbrev Callback (H U : Type) := H → Int → Nat → List (Int × H) × U → Bool × (List (Int × H) × U)

/-- The state of a run: the reactor, the rest of the program, the ghost trace. -/
structure RunState (H U : Type) where
  reactor : Reactor H
  user : U
  trace : List (RunEv H)

/-- How `Reactor::run` ended on a script of waits: it returned, it threw, or it is
blocked in `epoll_wait` (the script is used up). -/
inductive RunOutcome where
  | returned
  | threw (e : Exn)
  | waiting
  deriving DecidableEq, Repr

/-- The body of the `for` loop of `Reactor::run` for one ready entry that is not the
shutdown descriptor: look the callback up and call it inside `try`/`catch`. -/
def Reactor.dispatchOne {H U : Type} (call : Callback H U) (e : EpollEvent)
    (st : RunState H U) : RunState H U :=
  match mapFind st.reactor.m_handlers e.fd with
  | some h =>
    let out := call h e.fd e.events (st.reactor.m_handlers, st.user)
    { reactor := { st.reactor with m_handlers := out.2.1 }
      user := out.2.2
      trace := st.trace ++ [.invoke e.fd e.events h out.1] }
  | none => st

/-- The `for` loop of `Reactor::run` over one batch: the value of `running` after the
loop and the state. -/
def Reactor.dispatchBatch {H U : Type} (call : Callback H U) :
    List EpollEvent → RunState H U → Bool × RunState H U
  | [], st => (true, st)
  | e :: es, st =>
    if e.fd = st.reactor.m_shutdownFd then
      (false, { st with trace := st.trace ++ [.drain e.fd] })
    else
      Reactor.dispatchBatch call es (Reactor.dispatchOne call e st)

/-- The method `Reactor::run` on a script of `epoll_wait` answers. -/
def Reactor.run {H U : Type} (call : Callback H U) :
    RunState H U → List WaitRes → RunOutcome × RunState H U
  | st, [] => (.waiting, st)
  | st, w :: ws =>
    let st1 : RunState H U := { st with trace := st.trace ++ [.wait w] }
    match w with
    | .fail e =>
      if e = EINTR then Reactor.run call st1 ws
      else (.threw (.epoll_wait_failed e), st1)
    | .ready evs =>
      let out := Reactor.dispatchBatch call evs st1
      if out.1 then Reactor.run call out.2 ws else (.returned, out.2)

/-! ## tcp_server.cpp -/

/-- The two callbacks that `TCPServer` stores in the reactor: the lambda of the
constructor (accept) and the lambda registered for each accepted descriptor. -/
inductive ServerHandler where
  | listen
  | client
  deriving DecidableEq, Repr

/-- The struct `ClientState`; `socket` is the `std::unique_ptr<Socket>` (`none`: null). -/
structure ClientState where
  socket : Option Socket
  write_buffer : List Nat
  deriving DecidableEq, Repr

/-- The class `TCPServer`. The field `io` is ghost: the read, write and close calls
issued so far (the `epoll_ctl` calls are in `m_reactor.sys`). -/
structure TCPServer where
  m_listen_socket : Socket
  m_reactor : Reactor ServerHandler
  m_clients : List (Int × ClientState)
  io : List IoCall

/-- The function `std::toupper` in the default "C" locale. -/
def toupper (c : Nat) : Nat :=
  if 97 ≤ c ∧ c ≤ 122 then c - 32 else c

/-- The lambda passed to `std::transform` in `handleClientData`: the element is
converted to `unsigned char`, upper-cased, and converted back. -/
def transformByte (c : Nat) : Nat :=
  toupper (c % 256) % 256

/-- The destruction of a `ClientState`: the `unique_ptr` deletes its `Socket`, if any. -/
def ClientState.dtor (cs : ClientState) : List Int :=
  match cs.socket with
  | some sk => sk.dtor
  | none => []

/-- The method `TCPServer::cleanupClient`. -/
def TCPServer.cleanupClient (s : TCPServer) (os : EpollCtl) (fd : Int) : TCPServer :=
  let r := s.m_reactor.unregisterHandler os fd
  let closes : List Int :=
    match mapFind s.m_clients fd with
    | some cs => cs.dtor
    | none => []
  { s with
    m_reactor := r
    m_clients := mapErase s.m_clients fd
    io := s.io ++ closes.map IoCall.close }

/-- A call of `m_reactor.modifyHandler(fd, events)` from the server. -/
def TCPServer.modify (s : TCPServer) (os : EpollCtl) (fd : Int) (events : Nat) : TCPServer :=
  { s with m_reactor := s.m_reactor.modifyHandler os fd events }

/-- A write through the reference `it->second.write_buffer`. -/
def TCPServer.setBuffer (s : TCPServer) (fd : Int) (buf : List Nat) : TCPServer :=
  { s with m_clients := mapUpdate s.m_clients fd (fun cs => { cs with write_buffer := buf }) }

/-- One `write(fd, buffer.data(), buffer.size())` of the flush loop with the answer `w`,
`buffer` being the current content of the queue (not empty): the state afterwards, and
the remaining queue when the loop goes round again (`none`: the handler has returned). -/
def TCPServer.writeStep (s : TCPServer) (os : EpollCtl) (fd : Int) (buffer : List Nat)
    (w : WriteRes) : TCPServer × Option (List Nat) :=
  let s1 : TCPServer := { s with io := s.io ++ [.write fd buffer w] }
  match w with
  | .fail e =>
    if e = EAGAIN ∨ e = EWOULDBLOCK then
      if buffer.length < RESUME_WRITE_BUFFER_SIZE then
        (s1.modify os fd (EPOLLIN ||| EPOLLOUT ||| EPOLLET), none)
      else
        (s1.modify os fd (EPOLLOUT ||| EPOLLET), none)
    else if e = EPIPE ∨ e = ECONNRESET then
      (s1.cleanupClient os fd, none)
    else
      (s1.cleanupClient os fd, none)
  | .ok bytes_written =>
    let rest := buffer.drop bytes_written
    let s2 := s1.setBuffer fd rest
    if rest.isEmpty then
      (s2.modify os fd (EPOLLIN ||| EPOLLET), none)
    else
      (s2, some rest)

/-- The loop `while (!buffer.empty())` of `handleClientWrite` with what follows it, on
a script of write answers; a script that is used up answers `EAGAIN`. -/
def TCPServer.writeLoop (os : EpollCtl) (fd : Int) :
    TCPServer → List Nat → List WriteRes → TCPServer
  | s, buffer, [] => (s.writeStep os fd buffer (.fail EAGAIN)).1
  | s, buffer, w :: ws =>
    match s.writeStep os fd buffer w with
    | (s1, none) => s1
    | (s1, some rest) => TCPServer.writeLoop os fd s1 rest ws

/-- The method `TCPServer::handleClientWrite`. -/
def TCPServer.handleClientWrite (s : TCPServer) (os : EpollCtl) (fd : Int)
    (writes : List WriteRes) : TCPServer :=
  match mapFind s.m_clients fd with
  | none => s.modify os fd (EPOLLIN ||| EPOLLET)
  | some cs =>
    if cs.write_buffer.isEmpty then
      s.modify os fd (EPOLLIN ||| EPOLLET)
    else
      TCPServer.writeLoop os fd s cs.write_buffer writes

/-- The end of `handleClientData` once the read loop has seen "would block":
`read_complete` is set, and a queue that is not empty is flushed. -/
def TCPServer.readComplete (s : TCPServer) (os : EpollCtl) (fd : Int) (buffer : List Nat)
    (writes : List WriteRes) : TCPServer :=
  if ¬ buffer.isEmpty then s.handleClientWrite os fd writes else s

/-- The loop `while (true)` of `handleClientData` with what follows it, on a script of
read answers (used up: `EAGAIN`); `buffer` is the current content of the queue. -/
def TCPServer.readLoop (os : EpollCtl) (fd : Int) (writes : List WriteRes) :
    TCPServer → List Nat → List ReadRes → TCPServer
  | s, buffer, [] =>
    TCPServer.readComplete { s with io := s.io ++ [.read fd (.fail EAGAIN)] } os fd buffer writes
  | s, buffer, r :: rs =>
    let s1 : TCPServer := { s with io := s.io ++ [.read fd r] }
    match r with
    | .ok bs =>
      if bs.length = 0 then
        s1.cleanupClient os fd
      else
        let buffer1 := buffer ++ bs.map transformByte
        let s2 := s1.setBuffer fd buffer1
        if buffer1.length ≥ MAX_WRITE_BUFFER_SIZE then
          (s2.modify os fd (EPOLLOUT ||| EPOLLET)).handleClientWrite os fd writes
        else
          TCPServer.readLoop os fd writes s2 buffer1 rs
    | .fail e =>
      if e = EAGAIN ∨ e = EWOULDBLOCK then
        TCPServer.readComplete s1 os fd buffer writes
      else
        s1.cleanupClient os fd

/-- The method `TCPServer::handleClientData`. -/
def TCPServer.handleClientData (s : TCPServer) (os : EpollCtl) (fd : Int)
    (reads : List ReadRes) (writes : List WriteRes) : TCPServer :=
  match mapFind s.m_clients fd with
  | none => s
  | some cs =>
    if cs.write_buffer.length ≥ MAX_WRITE_BUFFER_SIZE then
      s.modify os fd (EPOLLOUT ||| EPOLLET)
    else
      TCPServer.readLoop os fd writes s cs.write_buffer reads

/-- The lambda registered for an accepted descriptor in `handleNewConnection`; `writes1`
answers the flush it starts itself, `reads` and `writes2` the read handler. -/
def TCPServer.clientCallback (s : TCPServer) (os : EpollCtl) (cfd : Int) (events : Nat)
    (writes1 : List WriteRes) (reads : List ReadRes) (writes2 : List WriteRes) : TCPServer :=
  match mapFind s.m_clients cfd with
  | none => s
  | some _ =>
    if events &&& (EPOLLHUP ||| EPOLLERR) ≠ 0 then
      s.cleanupClient os cfd
    else
      let s1 := if events &&& EPOLLOUT ≠ 0 then s.handleClientWrite os cfd writes1 else s
      if events &&& EPOLLIN ≠ 0 then s1.handleClientData os cfd reads writes2 else s1

/-- One handler invocation with the answers of the OS during it. -/
inductive Invocation where
  | data (fd : Int) (os : EpollCtl) (reads : List ReadRes) (writes : List WriteRes)
  | write (fd : Int) (os : EpollCtl) (writes : List WriteRes)
  | event (fd : Int) (events : Nat) (os : EpollCtl) (writes1 : List WriteRes)
      (reads : List ReadRes) (writes2 : List WriteRes)

/-- Run one handler invocation to its return. -/
def TCPServer.invoke (s : TCPServer) : Invocation → TCPServer
  | .data fd os reads writes => s.handleClientData os fd reads writes
  | .write fd os writes => s.handleClientWrite os fd writes
  | .event fd events os writes1 reads writes2 =>
    s.clientCallback os fd events writes1 reads writes2

/-- Run a sequence of handler invocations, one after the other. -/
def TCPServer.invokeAll (s : TCPServer) (invs : List Invocation) : TCPServer :=
  invs.foldl TCPServer.invoke s

/-! ## Ghost observations on the histories -/

/-- All bytes read from `fd` so far, in order. -/
def bytesRead (fd : Int) : List IoCall → List Nat
  | [] => []
  | .read fd1 (.ok bs) :: l => if fd1 = fd then bs ++ bytesRead fd l else bytesRead fd l
  | _ :: l => bytesRead fd l

/-- All bytes handed to the peer of `fd` so far, in order: each successful write hands
over the first `n` bytes of the buffer it offered. -/
def bytesSent (fd : Int) : List IoCall → List Nat
  | [] => []
  | .write fd1 buf (.ok n) :: l =>
    if fd1 = fd then buf.take n ++ bytesSent fd l else bytesSent fd l
  | _ :: l => bytesSent fd l

/-- The interest mask last requested for `fd` through `epoll_ctl` (add or modify). -/
def interest (fd : Int) : List CtlCall → Option Nat
  | [] => none
  | c :: l =>
    match interest fd l with
    | some m => some m
    | none => if c.fd = fd ∧ c.op ≠ .del then some c.events else none

/-- The output queue of `fd`, if the connection is open. -/
def TCPServer.queue (s : TCPServer) (fd : Int) : Option (List Nat) :=
  (mapFind s.m_clients fd).map ClientState.write_buffer

/-- The stream law of the connection `fd`: while it is open, the bytes handed to the
peer so far followed by the output queue are the transform of all bytes read so far. -/
def StreamLaw (s : TCPServer) (fd : Int) : Prop :=
  ∀ q, s.queue fd = some q →
    bytesSent fd s.io ++ q = (bytesRead fd s.io).map transformByte

/-- An answer function of the OS that accepts every `epoll_ctl` request. -/
def ctlOk : EpollCtl := fun _ _ _ => ⟨0, 0⟩

/-- An answer function of the OS that refuses every `epoll_ctl` request with `ENOMEM`. -/
def ctlFail : EpollCtl := fun _ _ _ => ⟨-1, 12⟩

/-- A server right after descriptor 5 has been accepted: listening socket 3, epoll
descriptor 4, shutdown descriptor 6; the connection has an empty queue and read
interest, and no byte has been read or written. -/
def accepted5 : TCPServer :=
  { m_listen_socket := ⟨3⟩
    m_reactor :=
      { m_epollFd := 4
        m_shutdownFd := 6
        m_handlers := [(3, .listen), (5, .client)]
        sys := [⟨.add, 3, EPOLLIN ||| EPOLLET, ⟨0, 0⟩⟩, ⟨.add, 5, EPOLLIN ||| EPOLLET, ⟨0, 0⟩⟩] }
    m_clients := [(5, { socket := some ⟨5⟩, write_buffer := [] })]
    io := [] }

/-- The backpressure law of the connection `fd` at a handler return: while it is open,
a queue of `RESUME_WRITE_BUFFER_SIZE` bytes or more goes with write-only interest, a
shorter queue with an interest mask that includes `EPOLLIN`. -/
def Backpressure (s : TCPServer) (fd : Int) : Prop :=
  ∀ q, s.queue fd = some q →
    (RESUME_WRITE_BUFFER_SIZE ≤ q.length →
      interest fd s.m_reactor.sys = some (EPOLLOUT ||| EPOLLET)) ∧
    (q.length < RESUME_WRITE_BUFFER_SIZE →
      ∃ m, interest fd s.m_reactor.sys = some m ∧ m &&& EPOLLIN ≠ 0)

/-- The callback invocations of a trace, in order: descriptor, readiness bits, callback. -/
def invocations {H : Type} : List (RunEv H) → List (Int × Nat × H)
  | [] => []
  | .invoke fd events h _ :: l => (fd, events, h) :: invocations l
  | _ :: l => invocations l

/-- The callback invocations of a trace that were made for the descriptor `fd`. -/
def callsOn {H : Type} (fd : Int) (tr : List (RunEv H)) : List (Int × Nat × H) :=
  (invocations tr).filter (fun c => decide (c.1 = fd))

/-- What one batch should invoke when no callback touches the handler table `tbl`: for
each reported entry with a stored callback, that callback with the entry's descriptor and
readiness bits, in the reported order. -/
def expectedCalls {H : Type} (tbl : List (Int × H)) : List EpollEvent → List (Int × Nat × H)
  | [] => []
  | e :: es =>
    match mapFind tbl e.fd with
    | some h => (e.fd, e.events, h) :: expectedCalls tbl es
    | none => expectedCalls tbl es

/-- A reactor with epoll descriptor 4 and shutdown descriptor 6 in which descriptor 5 is
registered with callback 1 and descriptor 7 with callback 2. -/
def reactor5 : Reactor Nat :=
  { m_epollFd := 4
    m_shutdownFd := 6
    m_handlers := [(5, 1), (7, 2)]
    sys := [⟨.add, 5, EPOLLIN, ⟨0, 0⟩⟩, ⟨.add, 7, EPOLLIN, ⟨0, 0⟩⟩] }

/-- Callbacks that return at once and change nothing. -/
def callReturn : Callback Nat Unit := fun _ _ _ x => (false, x)

/-- Callbacks of which number 1 throws and the others return; none changes anything. -/
def callThrow1 : Callback Nat Unit := fun h _ _ x => (decide (h = 1), x)

/-- A store with two sockets: the object at address 0 holds descriptor 8, the object
at address 1 holds descriptor 9, every other object holds none; nothing closed yet. -/
def store89 : SocketStore :=
  { obj := fun a => if a = 0 then ⟨8⟩ else if a = 1 then ⟨9⟩ else ⟨-1⟩
    closed := [] }

/-! ## Accepting connections: socket.cpp `setNonBlocking`, tcp_server.cpp
`handleNewConnection` -/

/-- The flag `O_NONBLOCK` of `<fcntl.h>` (octal 04000). -/
def O_NONBLOCK : Nat := 2048

/-- The answers of the OS to `fcntl`: `getfl fd` answers `fcntl(fd, F_GETFL, 0)` (the
flags, or `-1`), `setfl fd flags` answers `fcntl(fd, F_SETFL, flags)`. -/
structure Fcntl where
  getfl : Int → Int
  setfl : Int → Nat → Int

/-- The method `Socket::setNonBlocking`. -/
def Socket.setNonBlocking (s : Socket) (fc : Fcntl) : Except Exn Unit :=
  let flags := fc.getfl s.m_fd
  if flags = -1 then
    .error .get_flags_failed
  else if fc.setfl s.m_fd (flags.toNat ||| O_NONBLOCK) = -1 then
    .error .set_flags_failed
  else
    .ok ()

/-- The answer of `accept(fd, ...)`: `ok client_fd` returns the new descriptor, `fail e`
returns `-1` with `errno = e`. -/
inductive AcceptRes where
  | ok (client_fd : Int)
  | fail (errno : Nat)
  deriving DecidableEq, Repr

/-- The assignment `m_clients[client_fd] = std::move(state)` with a fresh state that
owns the socket of `client_fd`: a state already stored under the key is overwritten, so
that the socket it owned is deleted. -/
def TCPServer.storeClient (s : TCPServer) (client_fd : Int) : TCPServer :=
  let closes : List Int :=
    match mapFind s.m_clients client_fd with
    | some cs => cs.dtor
    | none => []
  { s with
    m_clients := mapAssign s.m_clients client_fd { socket := some ⟨client_fd⟩, write_buffer := [] }
    io := s.io ++ closes.map IoCall.close }

/-- The method `TCPServer::handleNewConnection` on a script of accept answers (used
up: `EAGAIN`): the exception that leaves it, if any, and the server afterwards. An
exception of `setNonBlocking` unwinds through the `unique_ptr` that owns the new socket,
which closes it. -/
def TCPServer.handleNewConnection (os : EpollCtl) (fc : Fcntl) (fd : Int) :
    TCPServer → List AcceptRes → Except Exn Unit × TCPServer
  | s, [] => (.ok (), s)
  | s, a :: rest =>
    match a with
    | .fail e =>
      if e = EAGAIN ∨ e = EWOULDBLOCK then
        (.ok (), s)
      else
        (.ok (), s)
    | .ok client_fd =>
      match Socket.setNonBlocking ⟨client_fd⟩ fc with
      | .error ex =>
        (.error ex, { s with io := s.io ++ (Socket.dtor ⟨client_fd⟩).map IoCall.close })
      | .ok () =>
        let s1 := s.storeClient client_fd
        let out := s1.m_reactor.registerHandler os client_fd (EPOLLIN ||| EPOLLET) .client
        match out.1 with
        | .error ex => (.error ex, { s1 with m_reactor := out.2 })
        | .ok () =>
          TCPServer.handleNewConnection os fc fd { s1 with m_reactor := out.2 } rest

/-- Answers of the OS to `fcntl` that report the flags `O_RDWR` and accept every change. -/
def fcntlOk : Fcntl := ⟨fun _ => 2, fun _ _ => 0⟩

/-- A server that listens on descriptor 3 and has no connection yet: epoll descriptor
4, shutdown descriptor 6. -/
def listening3 : TCPServer :=
  { m_listen_socket := ⟨3⟩
    m_reactor :=
      { m_epollFd := 4
        m_shutdownFd := 6
        m_handlers := [(3, .listen)]
        sys := [⟨.add, 3, EPOLLIN ||| EPOLLET, ⟨0, 0⟩⟩] }
    m_clients := []
    io := [] }

/-! ## Observations for the bound on the output queue -/

/-- The size of the scratch buffer `temp_buf` of `handleClientData`. -/
def TEMP_BUF_SIZE : Nat := 4096

/-- The number of read calls on `fd` in a history. -/
def readCalls (fd : Int) : List IoCall → Nat
  | [] => 0
  | .read fd1 _ :: l => (if fd1 = fd then 1 else 0) + readCalls fd l
  | _ :: l => readCalls fd l

/-- The number of write calls on `fd` in a history. -/
def writeCalls (fd : Int) : List IoCall → Nat
  | [] => 0
  | .write fd1 _ _ :: l => (if fd1 = fd then 1 else 0) + writeCalls fd l
  | _ :: l => writeCalls fd l

/-- The bytes read from `fd` and not yet handed to its peer never exceeded
65535 + 4096: at every point of the history (every prefix of it) the bytes read are at
most that many more than the bytes sent. -/
def PeakBound (s : TCPServer) (fd : Int) : Prop :=
  ∀ p, p <+: s.io → (bytesRead fd p).length ≤ (bytesSent fd p).length + (65535 + 4096)

/-- A read answer that fits the scratch buffer. -/
def ReadRes.bounded : ReadRes → Prop
  | .ok bs => bs.length ≤ TEMP_BUF_SIZE
  | .fail _ => True

/-- An invocation all of whose read answers fit the scratch buffer. -/
def Invocation.readsBounded : Invocation → Prop
  | .data _ _ reads _ => ∀ r ∈ reads, r.bounded
  | .write _ _ _ => True
  | .event _ _ _ _ reads _ => ∀ r ∈ reads, r.bounded

/-! ## Facts about the association lists -/

theorem mapFind_mapUpdate {V : Type} (m : List (Int × V)) (k k1 : Int) (f : V → V) :
    mapFind (mapUpdate m k f) k1 = if k1 = k then (mapFind m k).map f else mapFind m k1 := by
  induction m with
  | nil => simp [mapUpdate, mapFind]
  | cons p m ih =>
    obtain ⟨a, v⟩ := p
    by_cases h : a = k
    · subst h
      by_cases h1 : a = k1
      · subst h1; simp [mapUpdate, mapFind]
      · have h2 : ¬ k1 = a := fun e => h1 e.symm
        simp [mapUpdate, mapFind, h1, h2]
    · by_cases h1 : a = k1
      · subst h1; simp [mapUpdate, mapFind, h]
      · simp [mapUpdate, mapFind, h, h1, ih]

theorem mapFind_mapErase {V : Type} (m : List (Int × V)) (k k1 : Int) :
    mapFind (mapErase m k) k1 = if k1 = k then none else mapFind m k1 := by
  induction m with
  | nil => simp [mapErase, mapFind]
  | cons p m ih =>
    obtain ⟨a, v⟩ := p
    by_cases h : a = k
    · subst h
      by_cases h1 : a = k1
      · subst h1; simp [mapErase, mapFind, ih]
      · simp [mapErase, mapFind, h1, ih]
    · by_cases h1 : a = k1
      · subst h1; simp [mapErase, mapFind, h]
      · simp [mapErase, mapFind, h, h1, ih]

theorem mapFind_mapAssign {V : Type} (m : List (Int × V)) (k k1 : Int) (v : V) :
    mapFind (mapAssign m k v) k1 = if k1 = k then some v else mapFind m k1 := by
  induction m with
  | nil =>
    by_cases h : k = k1
    · subst h; simp [mapAssign, mapFind]
    · have h2 : ¬ k1 = k := fun e => h e.symm
      simp [mapAssign, mapFind, h, h2]
  | cons p m ih =>
    obtain ⟨a, w⟩ := p
    by_cases h : a = k
    · subst h
      by_cases h1 : a = k1
      · subst h1; simp [mapAssign, mapFind]
      · have h2 : ¬ k1 = a := fun e => h1 e.symm
        simp [mapAssign, mapFind, h1, h2]
    · by_cases h1 : a = k1
      · subst h1; simp [mapAssign, mapFind, h]
      · simp [mapAssign, mapFind, h, h1, ih]

/-! ## Facts about the ghost observations -/

theorem bytesRead_append (fd : Int) (l1 l2 : List IoCall) :
    bytesRead fd (l1 ++ l2) = bytesRead fd l1 ++ bytesRead fd l2 := by
  induction l1 with
  | nil => simp [bytesRead]
  | cons c l ih =>
    cases c with
    | read fd1 res =>
      cases res with
      | ok bs => by_cases h : fd1 = fd <;> simp [bytesRead, h, ih]
      | fail e => simp [bytesRead, ih]
    | write fd1 buf res => simp [bytesRead, ih]
    | close fd1 => simp [bytesRead, ih]

theorem bytesSent_append (fd : Int) (l1 l2 : List IoCall) :
    bytesSent fd (l1 ++ l2) = bytesSent fd l1 ++ bytesSent fd l2 := by
  induction l1 with
  | nil => simp [bytesSent]
  | cons c l ih =>
    cases c with
    | read fd1 res => simp [bytesSent, ih]
    | write fd1 buf res =>
      cases res with
      | ok n => by_cases h : fd1 = fd <;> simp [bytesSent, h, ih]
      | fail e => simp [bytesSent, ih]
    | close fd1 => simp [bytesSent, ih]

theorem bytesRead_closes (fd : Int) (l : List Int) :
    bytesRead fd (l.map IoCall.close) = [] := by
  induction l with
  | nil => simp [bytesRead]
  | cons c l ih => simp [bytesRead, ih]

theorem bytesSent_closes (fd : Int) (l : List Int) :
    bytesSent fd (l.map IoCall.close) = [] := by
  induction l with
  | nil => simp [bytesSent]
  | cons c l ih => simp [bytesSent, ih]

/-! ## The effect of the elementary server operations -/

@[simp] theorem modify_queue (s : TCPServer) (os : EpollCtl) (fd : Int) (ev : Nat) (t : Int) :
    (s.modify os fd ev).queue t = s.queue t := rfl

@[simp] theorem modify_io (s : TCPServer) (os : EpollCtl) (fd : Int) (ev : Nat) :
    (s.modify os fd ev).io = s.io := rfl

@[simp] theorem modify_clients (s : TCPServer) (os : EpollCtl) (fd : Int) (ev : Nat) :
    (s.modify os fd ev).m_clients = s.m_clients := rfl

@[simp] theorem setBuffer_io (s : TCPServer) (fd : Int) (buf : List Nat) :
    (s.setBuffer fd buf).io = s.io := rfl

@[simp] theorem setBuffer_reactor (s : TCPServer) (fd : Int) (buf : List Nat) :
    (s.setBuffer fd buf).m_reactor = s.m_reactor := rfl

theorem setBuffer_queue (s : TCPServer) (fd : Int) (buf : List Nat) (t : Int) :
    (s.setBuffer fd buf).queue t =
      if t = fd then (s.queue fd).map (fun _ => buf) else s.queue t := by
  unfold TCPServer.queue TCPServer.setBuffer
  simp only [mapFind_mapUpdate]
  by_cases h : t = fd
  · simp only [h, if_true]
    cases mapFind s.m_clients fd <;> rfl
  · simp only [h, if_false]

theorem cleanupClient_queue (s : TCPServer) (os : EpollCtl) (fd t : Int) :
    (s.cleanupClient os fd).queue t = if t = fd then none else s.queue t := by
  unfold TCPServer.queue TCPServer.cleanupClient
  simp only [mapFind_mapErase]
  by_cases h : t = fd <;> simp [h]

theorem cleanupClient_bytesRead (s : TCPServer) (os : EpollCtl) (fd t : Int) :
    bytesRead t (s.cleanupClient os fd).io = bytesRead t s.io := by
  unfold TCPServer.cleanupClient
  simp [bytesRead_append, bytesRead_closes]

theorem cleanupClient_bytesSent (s : TCPServer) (os : EpollCtl) (fd t : Int) :
    bytesSent t (s.cleanupClient os fd).io = bytesSent t s.io := by
  unfold TCPServer.cleanupClient
  simp [bytesSent_append, bytesSent_closes]

/-! ## The stream law is kept by every handler -/

theorem writeStep_law (s : TCPServer) (os : EpollCtl) (h t : Int) (buffer : List Nat)
    (w : WriteRes) (hl : StreamLaw s t) (hq : s.queue h = some buffer) :
    StreamLaw (s.writeStep os h buffer w).1 t ∧
      ∀ rest, (s.writeStep os h buffer w).2 = some rest →
        (s.writeStep os h buffer w).1.queue h = some rest := by
  cases w with
  | fail e =>
    have key : StreamLaw ({ s with io := s.io ++ [.write h buffer (.fail e)] } : TCPServer) t := by
      intro q hq1
      have := hl q hq1
      simpa [bytesSent_append, bytesRead_append, bytesSent, bytesRead] using this
    have keyc : StreamLaw
        (({ s with io := s.io ++ [.write h buffer (.fail e)] } : TCPServer).cleanupClient os h) t := by
      intro q hq1
      rw [cleanupClient_queue] at hq1
      rw [cleanupClient_bytesRead, cleanupClient_bytesSent]
      by_cases ht : t = h
      · simp [ht] at hq1
      · simp only [ht, if_false] at hq1
        exact key q hq1
    unfold TCPServer.writeStep
    simp only
    split_ifs <;> first | exact ⟨key, by simp⟩ | exact ⟨keyc, by simp⟩
  | ok n =>
    have hstep : StreamLaw
        (({ s with io := s.io ++ [.write h buffer (.ok n)] } : TCPServer).setBuffer h
          (buffer.drop n)) t := by
      intro q hq1
      rw [setBuffer_queue] at hq1
      simp only [setBuffer_io, bytesSent_append, bytesRead_append, bytesSent, bytesRead,
        List.append_nil]
      by_cases ht : t = h
      · subst ht
        have hq2 : s.queue t = some buffer := hq
        have hq3 : ({ s with io := s.io ++ [.write t buffer (.ok n)] } : TCPServer).queue t
            = some buffer := hq
        simp only [if_true, hq3, Option.map_some'] at hq1
        have hq4 : q = buffer.drop n := (Option.some.inj hq1).symm
        have := hl buffer hq2
        rw [hq4]
        simp only [if_true, List.append_assoc, List.take_append_drop]
        exact this
      · simp only [ht, if_false] at hq1
        have hne : ¬ h = t := fun e => ht e.symm
        have := hl q hq1
        simpa [hne] using this
    have hqs : (({ s with io := s.io ++ [.write h buffer (.ok n)] } : TCPServer).setBuffer h
          (buffer.drop n)).queue h = some (buffer.drop n) := by
      rw [setBuffer_queue]
      have hq3 : ({ s with io := s.io ++ [.write h buffer (.ok n)] } : TCPServer).queue h
            = some buffer := hq
      simp [hq3]
    unfold TCPServer.writeStep
    simp only
    split_ifs
    · refine ⟨?_, by simp⟩
      intro q hq1
      exact hstep q hq1
    · refine ⟨hstep, ?_⟩
      intro rest hrest
      simp only [Option.some.injEq] at hrest
      rw [← hrest]
      exact hqs

theorem writeLoop_law (os : EpollCtl) (h t : Int) (ws : List WriteRes) :
    ∀ (s : TCPServer) (buffer : List Nat), StreamLaw s t → s.queue h = some buffer →
      StreamLaw (TCPServer.writeLoop os h s buffer ws) t := by
  induction ws with
  | nil =>
    intro s buffer hl hq
    unfold TCPServer.writeLoop
    exact (writeStep_law s os h t buffer _ hl hq).1
  | cons w ws ih =>
    intro s buffer hl hq
    have hstep := writeStep_law s os h t buffer w hl hq
    unfold TCPServer.writeLoop
    rcases hres : s.writeStep os h buffer w with ⟨s1, o⟩
    rw [hres] at hstep
    cases o with
    | none => exact hstep.1
    | some rest => exact ih s1 rest hstep.1 (hstep.2 rest rfl)

theorem queue_of_find (s : TCPServer) (fd : Int) (cs : ClientState)
    (h : mapFind s.m_clients fd = some cs) : s.queue fd = some cs.write_buffer := by
  simp [TCPServer.queue, h]

theorem handleClientWrite_law (s : TCPServer) (os : EpollCtl) (h t : Int)
    (ws : List WriteRes) (hl : StreamLaw s t) : StreamLaw (s.handleClientWrite os h ws) t := by
  unfold TCPServer.handleClientWrite
  split
  · exact hl
  · rename_i cs hcs
    split_ifs
    · exact hl
    · exact writeLoop_law os h t ws s cs.write_buffer hl (queue_of_find s h cs hcs)

theorem cleanupClient_law (s : TCPServer) (os : EpollCtl) (h t : Int) (hl : StreamLaw s t) :
    StreamLaw (s.cleanupClient os h) t := by
  intro q hq1
  rw [cleanupClient_queue] at hq1
  rw [cleanupClient_bytesRead, cleanupClient_bytesSent]
  by_cases ht : t = h
  · simp [ht] at hq1
  · simp only [ht, if_false] at hq1
    exact hl q hq1

theorem logRead_fail_law (s : TCPServer) (h t : Int) (e : Nat) (hl : StreamLaw s t) :
    StreamLaw ({ s with io := s.io ++ [.read h (.fail e)] } : TCPServer) t := by
  intro q hq1
  have := hl q hq1
  simpa [bytesSent_append, bytesRead_append, bytesSent, bytesRead] using this

theorem readComplete_law (s : TCPServer) (os : EpollCtl) (h t : Int) (buffer : List Nat)
    (ws : List WriteRes) (hl : StreamLaw s t) :
    StreamLaw (s.readComplete os h buffer ws) t := by
  unfold TCPServer.readComplete
  split_ifs
  · exact hl
  · exact handleClientWrite_law s os h t ws hl

theorem readLoop_law (os : EpollCtl) (h t : Int) (ws : List WriteRes) (rs : List ReadRes) :
    ∀ (s : TCPServer) (buffer : List Nat), StreamLaw s t → s.queue h = some buffer →
      StreamLaw (TCPServer.readLoop os h ws s buffer rs) t := by
  induction rs with
  | nil =>
    intro s buffer hl _
    unfold TCPServer.readLoop
    exact readComplete_law _ os h t buffer ws (logRead_fail_law s h t EAGAIN hl)
  | cons r rs ih =>
    intro s buffer hl hq
    unfold TCPServer.readLoop
    cases r with
    | fail e =>
      simp only
      split_ifs
      · exact readComplete_law _ os h t buffer ws (logRead_fail_law s h t e hl)
      · exact cleanupClient_law _ os h t (logRead_fail_law s h t e hl)
    | ok bs =>
      have hq3 : ({ s with io := s.io ++ [.read h (.ok bs)] } : TCPServer).queue h
          = some buffer := hq
      have hstep : StreamLaw
          (({ s with io := s.io ++ [.read h (.ok bs)] } : TCPServer).setBuffer h
            (buffer ++ bs.map transformByte)) t := by
        intro q hq1
        rw [setBuffer_queue] at hq1
        simp only [setBuffer_io, bytesSent_append, bytesRead_append, bytesSent, bytesRead,
          List.append_nil]
        by_cases ht : t = h
        · subst ht
          simp only [if_true, hq3, Option.map_some'] at hq1
          have hq4 : q = buffer ++ bs.map transformByte := (Option.some.inj hq1).symm
          have := hl buffer hq
          rw [hq4]
          simp only [if_true, List.map_append, ← List.append_assoc, this]
        · simp only [ht, if_false] at hq1
          have hne : ¬ h = t := fun e => ht e.symm
          have := hl q hq1
          simpa [hne] using this
      have hqs : (({ s with io := s.io ++ [.read h (.ok bs)] } : TCPServer).setBuffer h
            (buffer ++ bs.map transformByte)).queue h = some (buffer ++ bs.map transformByte) := by
        rw [setBuffer_queue]
        simp [hq3]
      simp only
      split_ifs
      · have hl1 : StreamLaw ({ s with io := s.io ++ [.read h (.ok bs)] } : TCPServer) t := by
          intro q hq1
          have := hl q hq1
          have hb : bs = [] := List.length_eq_zero.mp (by assumption)
          simpa [bytesSent_append, bytesRead_append, bytesSent, bytesRead, hb] using this
        exact cleanupClient_law _ os h t hl1
      · apply handleClientWrite_law
        intro q hq1
        exact hstep q hq1
      · exact ih _ _ hstep hqs

theorem handleClientData_law (s : TCPServer) (os : EpollCtl) (h t : Int)
    (rs : List ReadRes) (ws : List WriteRes) (hl : StreamLaw s t) :
    StreamLaw (s.handleClientData os h rs ws) t := by
  unfold TCPServer.handleClientData
  split
  · exact hl
  · rename_i cs hcs
    split_ifs
    · exact hl
    · exact readLoop_law os h t ws rs s cs.write_buffer hl (queue_of_find s h cs hcs)

theorem clientCallback_law (s : TCPServer) (os : EpollCtl) (h : Int) (ev : Nat) (t : Int)
    (ws1 : List WriteRes) (rs : List ReadRes) (ws2 : List WriteRes) (hl : StreamLaw s t) :
    StreamLaw (s.clientCallback os h ev ws1 rs ws2) t := by
  unfold TCPServer.clientCallback
  split
  · exact hl
  · have h1 : StreamLaw
        (if ev &&& EPOLLOUT ≠ 0 then s.handleClientWrite os h ws1 else s) t := by
      split_ifs
      · exact handleClientWrite_law s os h t ws1 hl
      · exact hl
    split_ifs
    all_goals first
      | exact cleanupClient_law s os h t hl
      | exact handleClientData_law _ os h t rs ws2 (handleClientWrite_law s os h t ws1 hl)
      | exact handleClientData_law _ os h t rs ws2 hl
      | exact handleClientWrite_law s os h t ws1 hl
      | exact hl

theorem invoke_law (s : TCPServer) (t : Int) (inv : Invocation) (hl : StreamLaw s t) :
    StreamLaw (s.invoke inv) t := by
  cases inv with
  | data fd os rs ws => exact handleClientData_law s os fd t rs ws hl
  | write fd os ws => exact handleClientWrite_law s os fd t ws hl
  | event fd ev os ws1 rs ws2 => exact clientCallback_law s os fd ev t ws1 rs ws2 hl

theorem invokeAll_law (t : Int) (invs : List Invocation) :
    ∀ s : TCPServer, StreamLaw s t → StreamLaw (s.invokeAll invs) t := by
  induction invs with
  | nil => intro s hl; exact hl
  | cons inv invs ih =>
    intro s hl
    exact ih (s.invoke inv) (invoke_law s t inv hl)

theorem accepted5_law : StreamLaw accepted5 5 := by
  intro q hq
  have hq1 : q = [] := by
    simpa [TCPServer.queue, accepted5, mapFind] using hq.symm
  subst hq1
  simp [accepted5, bytesSent, bytesRead]

/-! ## C1: the output stream is the transform of the input stream -/

/-- C1: for every connection `fd` on which the stream law holds (as it does right after
accept) and every sequence of handler invocations with arbitrary read and write
answers, as long as the connection is open the bytes handed to the peer so far followed
by the output queue are the byte-for-byte transform of all bytes read so far, in order;
the transform is ASCII upper-casing on bytes; so two runs that have read the same bytes,
however fragmented, have the same output stream. -/
theorem C1_stream_is_transform_of_input (s : TCPServer) (fd : Int) (invs : List Invocation)
    (h0 : StreamLaw s fd) :
    (∀ q, (s.invokeAll invs).queue fd = some q →
        bytesSent fd (s.invokeAll invs).io ++ q
          = (bytesRead fd (s.invokeAll invs).io).map transformByte) ∧
    (∀ c, c < 256 → transformByte c = if 97 ≤ c ∧ c ≤ 122 then c - 32 else c) ∧
    (∀ (invs2 : List Invocation) (q q2 : List Nat),
        (s.invokeAll invs).queue fd = some q →
        (s.invokeAll invs2).queue fd = some q2 →
        bytesRead fd (s.invokeAll invs).io = bytesRead fd (s.invokeAll invs2).io →
        bytesSent fd (s.invokeAll invs).io ++ q = bytesSent fd (s.invokeAll invs2).io ++ q2) := by
  refine ⟨invokeAll_law fd invs s h0, ?_, ?_⟩
  · intro c hc
    unfold transformByte toupper
    rw [Nat.mod_eq_of_lt hc]
    split_ifs <;> omega
  · intro invs2 q q2 hq hq2 hr
    rw [invokeAll_law fd invs s h0 q hq, invokeAll_law fd invs2 s h0 q2 hq2, hr]

/-- C1 at a concrete input: descriptor 5 after accept reads "hi" and "!z" in two chunks,
one byte is written, then the rest is flushed in two partial writes. -/
theorem C1_stream_is_transform_of_input_witness :
    StreamLaw accepted5 5 ∧
    (accepted5.invokeAll
        [.data 5 ctlOk [.ok [104, 105], .ok [33, 122]] [.ok 1],
         .write 5 ctlOk [.ok 2, .ok 1]]).queue 5 = some [] ∧
    bytesSent 5 (accepted5.invokeAll
        [.data 5 ctlOk [.ok [104, 105], .ok [33, 122]] [.ok 1],
         .write 5 ctlOk [.ok 2, .ok 1]]).io ++ []
      = (bytesRead 5 (accepted5.invokeAll
        [.data 5 ctlOk [.ok [104, 105], .ok [33, 122]] [.ok 1],
         .write 5 ctlOk [.ok 2, .ok 1]]).io).map transformByte :=
  ⟨accepted5_law, by decide,
    (C1_stream_is_transform_of_input accepted5 5
      [.data 5 ctlOk [.ok [104, 105], .ok [33, 122]] [.ok 1],
       .write 5 ctlOk [.ok 2, .ok 1]] accepted5_law).1 [] (by decide)⟩

/-! ## C3: a partial write removes exactly the written bytes from the front -/

theorem cleanupClient_io_ext (s : TCPServer) (os : EpollCtl) (fd : Int) :
    ∃ tail, (s.cleanupClient os fd).io = s.io ++ tail :=
  ⟨_, rfl⟩

theorem writeStep_io (s : TCPServer) (os : EpollCtl) (fd : Int) (buffer : List Nat)
    (w : WriteRes) :
    ∃ tail, (s.writeStep os fd buffer w).1.io = s.io ++ .write fd buffer w :: tail := by
  cases w with
  | fail e =>
    unfold TCPServer.writeStep
    simp only
    split_ifs
    · exact ⟨[], by simp⟩
    · exact ⟨[], by simp⟩
    · obtain ⟨tail, ht⟩ := cleanupClient_io_ext
        ({ s with io := s.io ++ [.write fd buffer (.fail e)] } : TCPServer) os fd
      exact ⟨tail, by rw [ht]; simp⟩
    · obtain ⟨tail, ht⟩ := cleanupClient_io_ext
        ({ s with io := s.io ++ [.write fd buffer (.fail e)] } : TCPServer) os fd
      exact ⟨tail, by rw [ht]; simp⟩
  | ok n =>
    unfold TCPServer.writeStep
    simp only
    split_ifs
    · exact ⟨[], by simp⟩
    · exact ⟨[], by simp⟩

theorem writeLoop_io_ext (os : EpollCtl) (fd : Int) (ws : List WriteRes) :
    ∀ (s : TCPServer) (buffer : List Nat),
      ∃ tail, (TCPServer.writeLoop os fd s buffer ws).io = s.io ++ tail := by
  induction ws with
  | nil =>
    intro s buffer
    unfold TCPServer.writeLoop
    obtain ⟨tail, ht⟩ := writeStep_io s os fd buffer (.fail EAGAIN)
    exact ⟨_, ht⟩
  | cons w ws ih =>
    intro s buffer
    unfold TCPServer.writeLoop
    obtain ⟨tail, ht⟩ := writeStep_io s os fd buffer w
    rcases hres : s.writeStep os fd buffer w with ⟨s1, o⟩
    rw [hres] at ht
    cases o with
    | none => exact ⟨_, ht⟩
    | some rest =>
      obtain ⟨tail2, ht2⟩ := ih s1 rest
      refine ⟨.write fd buffer w :: tail ++ tail2, ?_⟩
      simp only at ht ⊢
      rw [ht2, ht]
      simp

theorem writeLoop_first_call (os : EpollCtl) (fd : Int) (w : WriteRes) (ws : List WriteRes)
    (s : TCPServer) (buffer : List Nat) :
    ∃ tail, (TCPServer.writeLoop os fd s buffer (w :: ws)).io
      = s.io ++ .write fd buffer w :: tail := by
  unfold TCPServer.writeLoop
  obtain ⟨tail, ht⟩ := writeStep_io s os fd buffer w
  rcases hres : s.writeStep os fd buffer w with ⟨s1, o⟩
  rw [hres] at ht
  cases o with
  | none => exact ⟨_, ht⟩
  | some rest =>
    obtain ⟨tail2, ht2⟩ := writeLoop_io_ext os fd ws s1 rest
    refine ⟨tail ++ tail2, ?_⟩
    simp only at ht ⊢
    rw [ht2, ht]
    simp

theorem writeStep_ok_queue (s : TCPServer) (os : EpollCtl) (fd : Int) (cs : ClientState)
    (n : Nat) (hfind : mapFind s.m_clients fd = some cs) :
    (s.writeStep os fd cs.write_buffer (.ok n)).1.queue fd = some (cs.write_buffer.drop n) := by
  have hq3 : ({ s with io := s.io ++ [.write fd cs.write_buffer (.ok n)] } : TCPServer).queue fd
      = some cs.write_buffer := queue_of_find s fd cs hfind
  unfold TCPServer.writeStep
  simp only
  split_ifs
  · rw [modify_queue, setBuffer_queue]
    simp [hq3]
  · rw [setBuffer_queue]
    simp [hq3]

theorem handleClientWrite_nonempty (s : TCPServer) (os : EpollCtl) (fd : Int)
    (cs : ClientState) (ws : List WriteRes)
    (hfind : mapFind s.m_clients fd = some cs) (hne : cs.write_buffer ≠ []) :
    s.handleClientWrite os fd ws = TCPServer.writeLoop os fd s cs.write_buffer ws := by
  have hemp : cs.write_buffer.isEmpty = false := by
    cases hb : cs.write_buffer with
    | nil => exact absurd hb hne
    | cons a l => rfl
  unfold TCPServer.handleClientWrite
  rw [hfind]
  simp only [hemp, Bool.false_eq_true, if_false]

theorem writeStep_wouldBlock_queue (s : TCPServer) (os : EpollCtl) (fd : Int)
    (buffer : List Nat) (t : Int) :
    (s.writeStep os fd buffer (.fail EAGAIN)).1.queue t = s.queue t := by
  unfold TCPServer.writeStep
  simp only [true_or, if_true]
  split_ifs <;> rfl

theorem writeStep_wouldBlock_io (s : TCPServer) (os : EpollCtl) (fd : Int)
    (buffer : List Nat) :
    (s.writeStep os fd buffer (.fail EAGAIN)).1.io
      = s.io ++ [.write fd buffer (.fail EAGAIN)] := by
  unfold TCPServer.writeStep
  simp only [true_or, if_true]
  split_ifs <;> rfl

theorem writeStep_ok_io (s : TCPServer) (os : EpollCtl) (fd : Int) (buffer : List Nat)
    (n : Nat) :
    (s.writeStep os fd buffer (.ok n)).1.io = s.io ++ [.write fd buffer (.ok n)] := by
  unfold TCPServer.writeStep
  simp only
  split_ifs <;> rfl

theorem writeStep_ok_next (s : TCPServer) (os : EpollCtl) (fd : Int) (buffer : List Nat)
    (n : Nat) :
    (s.writeStep os fd buffer (.ok n)).2
      = if (buffer.drop n).isEmpty then none else some (buffer.drop n) := by
  unfold TCPServer.writeStep
  simp only
  split_ifs <;> rfl

theorem drop_isEmpty_iff (l : List Nat) (n : Nat) :
    (l.drop n).isEmpty = true ↔ ¬ n < l.length := by
  rw [List.isEmpty_iff, List.drop_eq_nil_iff]
  omega

/-- C3: for every open connection whose queue holds M > 0 bytes and every write call
that reports N bytes with N ≤ M, the call was offered the whole queue and leaves in the
queue exactly the trailing M - N bytes in their order (the first N are the ones handed
over); when the OS accepts nothing more during that invocation, the handler returns with
that queue, having offered the OS the remainder once more if it is not empty; and the
first write call of any later invocation of the write handler offers exactly that
remainder, which starts at byte N of the original queue. -/
theorem C3_partial_write_keeps_tail (s : TCPServer) (os : EpollCtl) (fd : Int)
    (cs : ClientState) (n : Nat)
    (hfind : mapFind s.m_clients fd = some cs) (hne : cs.write_buffer ≠ [])
    (hn : n ≤ cs.write_buffer.length) :
    (s.writeStep os fd cs.write_buffer (.ok n)).1.queue fd = some (cs.write_buffer.drop n) ∧
    (cs.write_buffer.drop n).length = cs.write_buffer.length - n ∧
    cs.write_buffer.take n ++ cs.write_buffer.drop n = cs.write_buffer ∧
    (s.handleClientWrite os fd [.ok n]).queue fd = some (cs.write_buffer.drop n) ∧
    (s.handleClientWrite os fd [.ok n]).io
      = s.io ++ .write fd cs.write_buffer (.ok n) ::
          (if n < cs.write_buffer.length
            then [.write fd (cs.write_buffer.drop n) (.fail EAGAIN)] else []) ∧
    (∀ (os2 : EpollCtl) (w : WriteRes) (ws : List WriteRes), n < cs.write_buffer.length →
      ∃ tail, ((s.handleClientWrite os fd [.ok n]).handleClientWrite os2 fd (w :: ws)).io
        = (s.handleClientWrite os fd [.ok n]).io
            ++ .write fd (cs.write_buffer.drop n) w :: tail) := by
  have hn1 : n ≤ cs.write_buffer.length := hn
  have hfull : (s.handleClientWrite os fd [.ok n]).queue fd = some (cs.write_buffer.drop n) ∧
      (s.handleClientWrite os fd [.ok n]).io
        = s.io ++ .write fd cs.write_buffer (.ok n) ::
            (if n < cs.write_buffer.length
              then [.write fd (cs.write_buffer.drop n) (.fail EAGAIN)] else []) := by
    rw [handleClientWrite_nonempty s os fd cs _ hfind hne]
    have h1 := writeStep_ok_queue s os fd cs n hfind
    have h2 := writeStep_ok_io s os fd cs.write_buffer n
    have h3 := writeStep_ok_next s os fd cs.write_buffer n
    unfold TCPServer.writeLoop
    rcases hres : s.writeStep os fd cs.write_buffer (.ok n) with ⟨s1, o⟩
    rw [hres] at h1 h2 h3
    simp only at h1 h2 h3
    by_cases hlt : n < cs.write_buffer.length
    · have hd : ¬ (cs.write_buffer.drop n).isEmpty = true := by
        rw [drop_isEmpty_iff]; exact not_not.mpr hlt
      have h4 : o = some (cs.write_buffer.drop n) := by rw [h3, if_neg hd]
      subst h4
      simp only [hlt, if_true]
      unfold TCPServer.writeLoop
      rw [writeStep_wouldBlock_queue, writeStep_wouldBlock_io, h2]
      exact ⟨h1, by simp⟩
    · have hd : (cs.write_buffer.drop n).isEmpty = true := by
        rw [drop_isEmpty_iff]; exact hlt
      have h4 : o = none := by rw [h3, if_pos hd]
      subst h4
      simp only [hlt, if_false]
      exact ⟨h1, h2⟩
  refine ⟨writeStep_ok_queue s os fd cs n hfind, ?_, List.take_append_drop n _, hfull.1,
    hfull.2, ?_⟩
  · simp
  · intro os2 w ws hlt
    have hq1 := hfull.1
    generalize s.handleClientWrite os fd [.ok n] = s1 at hq1 ⊢
    unfold TCPServer.queue at hq1
    cases hf : mapFind s1.m_clients fd with
    | none => rw [hf] at hq1; simp at hq1
    | some cs1 =>
      rw [hf] at hq1
      have hb : cs1.write_buffer = cs.write_buffer.drop n := by simpa using hq1
      have hne1 : cs1.write_buffer ≠ [] := by
        rw [hb]
        intro hnil
        have := List.drop_eq_nil_iff.mp hnil
        omega
      rw [handleClientWrite_nonempty s1 os2 fd cs1 _ hf hne1, hb]
      exact writeLoop_first_call os2 fd w ws _ _

/-- C3 at a concrete input: the queue of descriptor 5 holds "HELLO" and the write call
reports 2 bytes; "LLO" stays queued and is what the next write call is offered. -/
theorem C3_partial_write_keeps_tail_witness :
    (({ accepted5 with
          m_clients := [(5, { socket := some ⟨5⟩, write_buffer := [72, 69, 76, 76, 79] })] }
        : TCPServer).handleClientWrite ctlOk 5 [.ok 2]).queue 5 = some [76, 76, 79] ∧
    (({ accepted5 with
          m_clients := [(5, { socket := some ⟨5⟩, write_buffer := [72, 69, 76, 76, 79] })] }
        : TCPServer).handleClientWrite ctlOk 5 [.ok 2]).io
      = [.write 5 [72, 69, 76, 76, 79] (.ok 2), .write 5 [76, 76, 79] (.fail EAGAIN)] :=
  ⟨(C3_partial_write_keeps_tail
      ({ accepted5 with
          m_clients := [(5, { socket := some ⟨5⟩, write_buffer := [72, 69, 76, 76, 79] })] })
      ctlOk 5 { socket := some ⟨5⟩, write_buffer := [72, 69, 76, 76, 79] } 2
      (by decide) (by decide) (by decide)).2.2.2.1,
   (C3_partial_write_keeps_tail
      ({ accepted5 with
          m_clients := [(5, { socket := some ⟨5⟩, write_buffer := [72, 69, 76, 76, 79] })] })
      ctlOk 5 { socket := some ⟨5⟩, write_buffer := [72, 69, 76, 76, 79] } 2
      (by decide) (by decide) (by decide)).2.2.2.2.1⟩

/-! ## What is closed under the elementary operations is kept by the handlers -/

theorem writeStep_closure (P : TCPServer → Prop) (h : Int)
    (hio : ∀ (s : TCPServer) (l : List IoCall), P s → P { s with io := s.io ++ l })
    (hmod : ∀ (s : TCPServer) (os : EpollCtl) (ev : Nat), P s → P (s.modify os h ev))
    (hset : ∀ (s : TCPServer) (buf : List Nat), P s → P (s.setBuffer h buf))
    (hclean : ∀ (s : TCPServer) (os : EpollCtl), P s → P (s.cleanupClient os h))
    (s : TCPServer) (os : EpollCtl) (buffer : List Nat) (w : WriteRes) (hs : P s) :
    P (s.writeStep os h buffer w).1 := by
  cases w with
  | fail e =>
    unfold TCPServer.writeStep
    simp only
    split_ifs
    · exact hmod _ _ _ (hio _ _ hs)
    · exact hmod _ _ _ (hio _ _ hs)
    · exact hclean _ _ (hio _ _ hs)
    · exact hclean _ _ (hio _ _ hs)
  | ok n =>
    unfold TCPServer.writeStep
    simp only
    split_ifs
    · exact hmod _ _ _ (hset _ _ (hio _ _ hs))
    · exact hset _ _ (hio _ _ hs)

theorem writeLoop_closure (P : TCPServer → Prop) (h : Int)
    (hio : ∀ (s : TCPServer) (l : List IoCall), P s → P { s with io := s.io ++ l })
    (hmod : ∀ (s : TCPServer) (os : EpollCtl) (ev : Nat), P s → P (s.modify os h ev))
    (hset : ∀ (s : TCPServer) (buf : List Nat), P s → P (s.setBuffer h buf))
    (hclean : ∀ (s : TCPServer) (os : EpollCtl), P s → P (s.cleanupClient os h))
    (os : EpollCtl) (ws : List WriteRes) :
    ∀ (s : TCPServer) (buffer : List Nat), P s → P (TCPServer.writeLoop os h s buffer ws) := by
  induction ws with
  | nil =>
    intro s buffer hs
    unfold TCPServer.writeLoop
    exact writeStep_closure P h hio hmod hset hclean s os buffer _ hs
  | cons w ws ih =>
    intro s buffer hs
    have hstep := writeStep_closure P h hio hmod hset hclean s os buffer w hs
    unfold TCPServer.writeLoop
    rcases hres : s.writeStep os h buffer w with ⟨s1, o⟩
    rw [hres] at hstep
    cases o with
    | none => exact hstep
    | some rest => exact ih s1 rest hstep

theorem handleClientWrite_closure (P : TCPServer → Prop) (h : Int)
    (hio : ∀ (s : TCPServer) (l : List IoCall), P s → P { s with io := s.io ++ l })
    (hmod : ∀ (s : TCPServer) (os : EpollCtl) (ev : Nat), P s → P (s.modify os h ev))
    (hset : ∀ (s : TCPServer) (buf : List Nat), P s → P (s.setBuffer h buf))
    (hclean : ∀ (s : TCPServer) (os : EpollCtl), P s → P (s.cleanupClient os h))
    (s : TCPServer) (os : EpollCtl) (ws : List WriteRes) (hs : P s) :
    P (s.handleClientWrite os h ws) := by
  unfold TCPServer.handleClientWrite
  split
  · exact hmod _ _ _ hs
  · split_ifs
    · exact hmod _ _ _ hs
    · exact writeLoop_closure P h hio hmod hset hclean os ws s _ hs

theorem readLoop_closure (P : TCPServer → Prop) (h : Int)
    (hio : ∀ (s : TCPServer) (l : List IoCall), P s → P { s with io := s.io ++ l })
    (hmod : ∀ (s : TCPServer) (os : EpollCtl) (ev : Nat), P s → P (s.modify os h ev))
    (hset : ∀ (s : TCPServer) (buf : List Nat), P s → P (s.setBuffer h buf))
    (hclean : ∀ (s : TCPServer) (os : EpollCtl), P s → P (s.cleanupClient os h))
    (os : EpollCtl) (ws : List WriteRes) (rs : List ReadRes) :
    ∀ (s : TCPServer) (buffer : List Nat), P s →
      P (TCPServer.readLoop os h ws s buffer rs) := by
  have hw := handleClientWrite_closure P h hio hmod hset hclean
  induction rs with
  | nil =>
    intro s buffer hs
    unfold TCPServer.readLoop TCPServer.readComplete
    split_ifs
    · exact hio _ _ hs
    · exact hw _ _ _ (hio _ _ hs)
  | cons r rs ih =>
    intro s buffer hs
    unfold TCPServer.readLoop
    cases r with
    | fail e =>
      simp only
      unfold TCPServer.readComplete
      split_ifs
      · exact hio _ _ hs
      · exact hw _ _ _ (hio _ _ hs)
      · exact hclean _ _ (hio _ _ hs)
    | ok bs =>
      simp only
      split_ifs
      · exact hclean _ _ (hio _ _ hs)
      · exact hw _ _ _ (hmod _ _ _ (hset _ _ (hio _ _ hs)))
      · exact ih _ _ (hset _ _ (hio _ _ hs))

theorem handleClientData_closure (P : TCPServer → Prop) (h : Int)
    (hio : ∀ (s : TCPServer) (l : List IoCall), P s → P { s with io := s.io ++ l })
    (hmod : ∀ (s : TCPServer) (os : EpollCtl) (ev : Nat), P s → P (s.modify os h ev))
    (hset : ∀ (s : TCPServer) (buf : List Nat), P s → P (s.setBuffer h buf))
    (hclean : ∀ (s : TCPServer) (os : EpollCtl), P s → P (s.cleanupClient os h))
    (s : TCPServer) (os : EpollCtl) (rs : List ReadRes) (ws : List WriteRes) (hs : P s) :
    P (s.handleClientData os h rs ws) := by
  unfold TCPServer.handleClientData
  split
  · exact hs
  · split_ifs
    · exact hmod _ _ _ hs
    · exact readLoop_closure P h hio hmod hset hclean os ws rs s _ hs

theorem clientCallback_closure (P : TCPServer → Prop) (h : Int)
    (hio : ∀ (s : TCPServer) (l : List IoCall), P s → P { s with io := s.io ++ l })
    (hmod : ∀ (s : TCPServer) (os : EpollCtl) (ev : Nat), P s → P (s.modify os h ev))
    (hset : ∀ (s : TCPServer) (buf : List Nat), P s → P (s.setBuffer h buf))
    (hclean : ∀ (s : TCPServer) (os : EpollCtl), P s → P (s.cleanupClient os h))
    (s : TCPServer) (os : EpollCtl) (ev : Nat) (ws1 : List WriteRes) (rs : List ReadRes)
    (ws2 : List WriteRes) (hs : P s) :
    P (s.clientCallback os h ev ws1 rs ws2) := by
  have hw := handleClientWrite_closure P h hio hmod hset hclean
  have hd := handleClientData_closure P h hio hmod hset hclean
  unfold TCPServer.clientCallback
  split
  · exact hs
  · split_ifs
    all_goals first
      | exact hclean _ _ hs
      | exact hd _ _ _ _ (hw _ _ _ hs)
      | exact hd _ _ _ _ hs
      | exact hw _ _ _ hs
      | exact hs

/-! ## C2: the backpressure law is kept by every handler -/

theorem interest_snoc (fd : Int) (l : List CtlCall) (c : CtlCall) :
    interest fd (l ++ [c])
      = if c.fd = fd ∧ c.op ≠ .del then some c.events else interest fd l := by
  induction l with
  | nil => simp [interest]
  | cons x l ih =>
    have hx : interest fd (x :: (l ++ [c]))
        = match interest fd (l ++ [c]) with
          | some m => some m
          | none => if x.fd = fd ∧ x.op ≠ .del then some x.events else none := rfl
    have hy : interest fd (x :: l)
        = match interest fd l with
          | some m => some m
          | none => if x.fd = fd ∧ x.op ≠ .del then some x.events else none := rfl
    rw [List.cons_append, hx, ih]
    by_cases hc : c.fd = fd ∧ c.op ≠ .del
    · rw [if_pos hc, if_pos hc]
    · rw [if_neg hc, if_neg hc, hy]

theorem modify_sys (s : TCPServer) (os : EpollCtl) (h : Int) (ev : Nat) :
    (s.modify os h ev).m_reactor.sys = s.m_reactor.sys ++ [⟨.mod, h, ev, os .mod h ev⟩] := rfl

theorem cleanupClient_sys (s : TCPServer) (os : EpollCtl) (h : Int) :
    (s.cleanupClient os h).m_reactor.sys
      = s.m_reactor.sys ++ [⟨.del, h, 0, os .del h 0⟩] := by
  unfold TCPServer.cleanupClient Reactor.unregisterHandler Reactor.epoll_ctl
  simp only
  split_ifs <;> rfl

theorem modify_interest_same (s : TCPServer) (os : EpollCtl) (t : Int) (ev : Nat) :
    interest t (s.modify os t ev).m_reactor.sys = some ev := by
  rw [modify_sys, interest_snoc]
  simp

theorem modify_interest_other (s : TCPServer) (os : EpollCtl) (h t : Int) (ev : Nat)
    (hne : h ≠ t) :
    interest t (s.modify os h ev).m_reactor.sys = interest t s.m_reactor.sys := by
  rw [modify_sys, interest_snoc]
  simp [hne]

theorem cleanupClient_interest (s : TCPServer) (os : EpollCtl) (h t : Int) :
    interest t (s.cleanupClient os h).m_reactor.sys = interest t s.m_reactor.sys := by
  rw [cleanupClient_sys, interest_snoc]
  simp

/-- A handler run on the descriptor `h` leaves the queue and the interest mask of every
other descriptor `t` as they were. -/
theorem other_fd_frame (h t : Int) (hne : h ≠ t) (s0 : TCPServer) :
    (∀ (os : EpollCtl) (ws : List WriteRes),
      (s0.handleClientWrite os h ws).queue t = s0.queue t ∧
      interest t (s0.handleClientWrite os h ws).m_reactor.sys = interest t s0.m_reactor.sys) ∧
    (∀ (os : EpollCtl) (rs : List ReadRes) (ws : List WriteRes),
      (s0.handleClientData os h rs ws).queue t = s0.queue t ∧
      interest t (s0.handleClientData os h rs ws).m_reactor.sys
        = interest t s0.m_reactor.sys) ∧
    (∀ (os : EpollCtl) (ev : Nat) (ws1 : List WriteRes) (rs : List ReadRes)
      (ws2 : List WriteRes),
      (s0.clientCallback os h ev ws1 rs ws2).queue t = s0.queue t ∧
      interest t (s0.clientCallback os h ev ws1 rs ws2).m_reactor.sys
        = interest t s0.m_reactor.sys) := by
  have hne2 : ¬ t = h := fun e => hne e.symm
  have hio : ∀ (s : TCPServer) (l : List IoCall),
      (s.queue t = s0.queue t ∧ interest t s.m_reactor.sys = interest t s0.m_reactor.sys) →
      (({ s with io := s.io ++ l } : TCPServer).queue t = s0.queue t ∧
        interest t ({ s with io := s.io ++ l } : TCPServer).m_reactor.sys
          = interest t s0.m_reactor.sys) := fun _ _ hs => hs
  have hmod : ∀ (s : TCPServer) (os : EpollCtl) (ev : Nat),
      (s.queue t = s0.queue t ∧ interest t s.m_reactor.sys = interest t s0.m_reactor.sys) →
      ((s.modify os h ev).queue t = s0.queue t ∧
        interest t (s.modify os h ev).m_reactor.sys = interest t s0.m_reactor.sys) := by
    intro s os ev hs
    rw [modify_interest_other s os h t ev hne]
    exact hs
  have hset : ∀ (s : TCPServer) (buf : List Nat),
      (s.queue t = s0.queue t ∧ interest t s.m_reactor.sys = interest t s0.m_reactor.sys) →
      ((s.setBuffer h buf).queue t = s0.queue t ∧
        interest t (s.setBuffer h buf).m_reactor.sys = interest t s0.m_reactor.sys) := by
    intro s buf hs
    rw [setBuffer_queue, if_neg hne2]
    exact hs
  have hclean : ∀ (s : TCPServer) (os : EpollCtl),
      (s.queue t = s0.queue t ∧ interest t s.m_reactor.sys = interest t s0.m_reactor.sys) →
      ((s.cleanupClient os h).queue t = s0.queue t ∧
        interest t (s.cleanupClient os h).m_reactor.sys = interest t s0.m_reactor.sys) := by
    intro s os hs
    rw [cleanupClient_queue, if_neg hne2, cleanupClient_interest]
    exact hs
  refine ⟨?_, ?_, ?_⟩
  · intro os ws
    exact handleClientWrite_closure _ h hio hmod hset hclean s0 os ws ⟨rfl, rfl⟩
  · intro os rs ws
    exact handleClientData_closure _ h hio hmod hset hclean s0 os rs ws ⟨rfl, rfl⟩
  · intro os ev ws1 rs ws2
    exact clientCallback_closure _ h hio hmod hset hclean s0 os ev ws1 rs ws2 ⟨rfl, rfl⟩

theorem backpressure_of_frame (s s1 : TCPServer) (t : Int) (hq : s1.queue t = s.queue t)
    (hi : interest t s1.m_reactor.sys = interest t s.m_reactor.sys)
    (hb : Backpressure s t) : Backpressure s1 t := by
  intro q hq1
  rw [hq] at hq1
  rw [hi]
  exact hb q hq1

theorem backpressure_of_closed (s : TCPServer) (t : Int) (hq : s.queue t = none) :
    Backpressure s t := by
  intro q hq1
  rw [hq] at hq1
  exact absurd hq1 (by simp)

theorem readable_masks :
    (EPOLLIN ||| EPOLLET) &&& EPOLLIN ≠ 0 ∧ (EPOLLIN ||| EPOLLOUT ||| EPOLLET) &&& EPOLLIN ≠ 0 ∧
      (EPOLLOUT ||| EPOLLET) &&& EPOLLIN = 0 := by
  decide

theorem backpressure_modify_readable (s : TCPServer) (os : EpollCtl) (t : Int) (ev : Nat)
    (q : List Nat) (hq : s.queue t = some q) (hlen : q.length < RESUME_WRITE_BUFFER_SIZE)
    (hev : ev &&& EPOLLIN ≠ 0) : Backpressure (s.modify os t ev) t := by
  intro q1 hq1
  rw [modify_queue, hq] at hq1
  have hq2 : q1 = q := (Option.some.inj hq1).symm
  subst hq2
  rw [modify_interest_same]
  exact ⟨fun h => absurd hlen (by omega), fun _ => ⟨ev, rfl, hev⟩⟩

theorem backpressure_modify_writeOnly (s : TCPServer) (os : EpollCtl) (t : Int)
    (q : List Nat) (hq : s.queue t = some q) (hlen : RESUME_WRITE_BUFFER_SIZE ≤ q.length) :
    Backpressure (s.modify os t (EPOLLOUT ||| EPOLLET)) t := by
  intro q1 hq1
  rw [modify_queue, hq] at hq1
  have hq2 : q1 = q := (Option.some.inj hq1).symm
  subst hq2
  rw [modify_interest_same]
  exact ⟨fun _ => rfl, fun h => absurd hlen (by omega)⟩

theorem writeStep_backpressure (s : TCPServer) (os : EpollCtl) (t : Int) (buffer : List Nat)
    (w : WriteRes) (hq : s.queue t = some buffer) :
    ((s.writeStep os t buffer w).2 = none → Backpressure (s.writeStep os t buffer w).1 t) ∧
    (∀ rest, (s.writeStep os t buffer w).2 = some rest →
      (s.writeStep os t buffer w).1.queue t = some rest) := by
  cases w with
  | fail e =>
    have hq3 : ({ s with io := s.io ++ [.write t buffer (.fail e)] } : TCPServer).queue t
        = some buffer := hq
    unfold TCPServer.writeStep
    simp only
    split_ifs with h1 h2 h3
    · exact ⟨fun _ => backpressure_modify_readable _ os t _ buffer hq3 h2
        readable_masks.2.1, by simp⟩
    · exact ⟨fun _ => backpressure_modify_writeOnly _ os t buffer hq3 (by omega), by simp⟩
    · exact ⟨fun _ => backpressure_of_closed _ t (by rw [cleanupClient_queue]; simp), by simp⟩
    · exact ⟨fun _ => backpressure_of_closed _ t (by rw [cleanupClient_queue]; simp), by simp⟩
  | ok n =>
    have hq3 : ({ s with io := s.io ++ [.write t buffer (.ok n)] } : TCPServer).queue t
        = some buffer := hq
    have hqs : (({ s with io := s.io ++ [.write t buffer (.ok n)] } : TCPServer).setBuffer t
          (buffer.drop n)).queue t = some (buffer.drop n) := by
      rw [setBuffer_queue]
      simp [hq3]
    unfold TCPServer.writeStep
    simp only
    split_ifs with h1
    · refine ⟨fun _ => ?_, by simp⟩
      apply backpressure_modify_readable _ os t _ (buffer.drop n) hqs _ readable_masks.1
      rw [List.isEmpty_iff] at h1
      rw [h1]
      decide
    · refine ⟨by simp, ?_⟩
      intro rest hrest
      simp only [Option.some.injEq] at hrest
      rw [← hrest]
      exact hqs

theorem writeLoop_backpressure (os : EpollCtl) (t : Int) (ws : List WriteRes) :
    ∀ (s : TCPServer) (buffer : List Nat), s.queue t = some buffer →
      Backpressure (TCPServer.writeLoop os t s buffer ws) t := by
  induction ws with
  | nil =>
    intro s buffer hq
    unfold TCPServer.writeLoop
    apply (writeStep_backpressure s os t buffer (.fail EAGAIN) hq).1
    unfold TCPServer.writeStep
    simp only [true_or, if_true]
    split_ifs <;> rfl
  | cons w ws ih =>
    intro s buffer hq
    have hstep := writeStep_backpressure s os t buffer w hq
    unfold TCPServer.writeLoop
    rcases hres : s.writeStep os t buffer w with ⟨s1, o⟩
    rw [hres] at hstep
    cases o with
    | none => exact hstep.1 rfl
    | some rest => exact ih s1 rest (hstep.2 rest rfl)

theorem handleClientWrite_backpressure (s : TCPServer) (os : EpollCtl) (t : Int)
    (ws : List WriteRes) : Backpressure (s.handleClientWrite os t ws) t := by
  unfold TCPServer.handleClientWrite
  split
  · rename_i hnone
    exact backpressure_of_closed _ t (by simp [TCPServer.queue, hnone])
  · rename_i cs hcs
    split_ifs with h1
    · apply backpressure_modify_readable s os t _ cs.write_buffer (queue_of_find s t cs hcs) _
        readable_masks.1
      rw [List.isEmpty_iff] at h1
      rw [h1]
      decide
    · exact writeLoop_backpressure os t ws s cs.write_buffer (queue_of_find s t cs hcs)

theorem readComplete_backpressure (s : TCPServer) (os : EpollCtl) (t : Int)
    (buffer : List Nat) (ws : List WriteRes) (hb : Backpressure s t ∨ buffer ≠ []) :
    Backpressure (s.readComplete os t buffer ws) t := by
  unfold TCPServer.readComplete
  split_ifs with h1
  · rcases hb with hb | hb
    · exact hb
    · rw [List.isEmpty_iff] at h1
      exact absurd h1 hb
  · exact handleClientWrite_backpressure s os t ws

theorem readLoop_backpressure (os : EpollCtl) (t : Int) (ws : List WriteRes)
    (rs : List ReadRes) :
    ∀ (s : TCPServer) (buffer : List Nat), s.queue t = some buffer →
      (Backpressure s t ∨ buffer ≠ []) →
      Backpressure (TCPServer.readLoop os t ws s buffer rs) t := by
  induction rs with
  | nil =>
    intro s buffer _ hb
    unfold TCPServer.readLoop
    apply readComplete_backpressure
    rcases hb with hb | hb
    · exact Or.inl (backpressure_of_frame s _ t rfl rfl hb)
    · exact Or.inr hb
  | cons r rs ih =>
    intro s buffer hq hb
    unfold TCPServer.readLoop
    cases r with
    | fail e =>
      simp only
      split_ifs
      · apply readComplete_backpressure
        rcases hb with hb | hb
        · exact Or.inl (backpressure_of_frame s _ t rfl rfl hb)
        · exact Or.inr hb
      · exact backpressure_of_closed _ t (by rw [cleanupClient_queue]; simp)
    | ok bs =>
      have hq3 : ({ s with io := s.io ++ [.read t (.ok bs)] } : TCPServer).queue t
          = some buffer := hq
      have hqs : (({ s with io := s.io ++ [.read t (.ok bs)] } : TCPServer).setBuffer t
            (buffer ++ bs.map transformByte)).queue t = some (buffer ++ bs.map transformByte) := by
        rw [setBuffer_queue]
        simp [hq3]
      simp only
      split_ifs with h1 h2
      · exact backpressure_of_closed _ t (by rw [cleanupClient_queue]; simp)
      · exact handleClientWrite_backpressure _ os t ws
      · apply ih _ _ hqs
        right
        intro hnil
        have hl := congrArg List.length hnil
        simp at hl
        exact h1 (by simp [hl.2])

theorem handleClientData_backpressure (s : TCPServer) (os : EpollCtl) (t : Int)
    (rs : List ReadRes) (ws : List WriteRes) (hb : Backpressure s t) :
    Backpressure (s.handleClientData os t rs ws) t := by
  unfold TCPServer.handleClientData
  split
  · exact hb
  · rename_i cs hcs
    split_ifs with h1
    · apply backpressure_modify_writeOnly s os t cs.write_buffer (queue_of_find s t cs hcs)
      unfold MAX_WRITE_BUFFER_SIZE at h1
      unfold RESUME_WRITE_BUFFER_SIZE
      omega
    · exact readLoop_backpressure os t ws rs s cs.write_buffer (queue_of_find s t cs hcs)
        (Or.inl hb)

theorem clientCallback_backpressure (s : TCPServer) (os : EpollCtl) (t : Int) (ev : Nat)
    (ws1 : List WriteRes) (rs : List ReadRes) (ws2 : List WriteRes) (hb : Backpressure s t) :
    Backpressure (s.clientCallback os t ev ws1 rs ws2) t := by
  unfold TCPServer.clientCallback
  split
  · exact hb
  · split_ifs
    all_goals first
      | exact backpressure_of_closed _ t (by rw [cleanupClient_queue]; simp)
      | exact handleClientData_backpressure _ os t rs ws2
          (handleClientWrite_backpressure s os t ws1)
      | exact handleClientData_backpressure _ os t rs ws2 hb
      | exact handleClientWrite_backpressure s os t ws1
      | exact hb

theorem invoke_backpressure (s : TCPServer) (t : Int) (inv : Invocation)
    (hb : Backpressure s t) : Backpressure (s.invoke inv) t := by
  cases inv with
  | data fd os rs ws =>
    by_cases h : fd = t
    · subst h; exact handleClientData_backpressure s os fd rs ws hb
    · have := (other_fd_frame fd t h s).2.1 os rs ws
      exact backpressure_of_frame s _ t this.1 this.2 hb
  | write fd os ws =>
    by_cases h : fd = t
    · subst h; exact handleClientWrite_backpressure s os fd ws
    · have := (other_fd_frame fd t h s).1 os ws
      exact backpressure_of_frame s _ t this.1 this.2 hb
  | event fd ev os ws1 rs ws2 =>
    by_cases h : fd = t
    · subst h; exact clientCallback_backpressure s os fd ev ws1 rs ws2 hb
    · have := (other_fd_frame fd t h s).2.2 os ev ws1 rs ws2
      exact backpressure_of_frame s _ t this.1 this.2 hb

theorem invokeAll_backpressure (t : Int) (invs : List Invocation) :
    ∀ s : TCPServer, Backpressure s t → Backpressure (s.invokeAll invs) t := by
  induction invs with
  | nil => intro s hb; exact hb
  | cons inv invs ih =>
    intro s hb
    exact ih (s.invoke inv) (invoke_backpressure s t inv hb)

theorem accepted5_backpressure : Backpressure accepted5 5 := by
  intro q hq
  have hq1 : q = [] := by
    simpa [TCPServer.queue, accepted5, mapFind] using hq.symm
  subst hq1
  refine ⟨fun h => absurd h (by decide), fun _ => ⟨EPOLLIN ||| EPOLLET, by decide, by decide⟩⟩

/-- C2: for every connection `fd` on which the backpressure law holds (as it does right
after accept, with an empty queue and read interest) and every sequence of read-handler,
write-handler and callback invocations with arbitrary OS answers, at the return of the
last handler, if the connection is still open: a queue of 65536 bytes or more goes with
the write-only mask `EPOLLOUT | EPOLLET` as the mask last requested; as long as the queue
holds 32768 bytes or more the mask last requested excludes `EPOLLIN`; and as soon as the
queue is below 32768 bytes the mask last requested includes `EPOLLIN`. The sequence is
arbitrary, so this holds at every handler return. -/
theorem C2_backpressure_hysteresis (s : TCPServer) (fd : Int) (invs : List Invocation)
    (h0 : Backpressure s fd) :
    MAX_WRITE_BUFFER_SIZE = 65536 ∧ RESUME_WRITE_BUFFER_SIZE = 32768 ∧
    ∀ q, (s.invokeAll invs).queue fd = some q →
      (65536 ≤ q.length →
        interest fd (s.invokeAll invs).m_reactor.sys = some (EPOLLOUT ||| EPOLLET)) ∧
      (32768 ≤ q.length →
        ∃ m, interest fd (s.invokeAll invs).m_reactor.sys = some m ∧ m &&& EPOLLIN = 0) ∧
      (q.length < 32768 →
        ∃ m, interest fd (s.invokeAll invs).m_reactor.sys = some m ∧ m &&& EPOLLIN ≠ 0) := by
  refine ⟨rfl, rfl, ?_⟩
  intro q hq
  have hb := invokeAll_backpressure fd invs s h0 q hq
  have hres : RESUME_WRITE_BUFFER_SIZE = 32768 := rfl
  rw [hres] at hb
  refine ⟨fun h => hb.1 (by omega), fun h => ⟨_, hb.1 h, readable_masks.2.2⟩, hb.2⟩

/-- C2 at a concrete input: descriptor 5 after accept reads four bytes, one byte is
written and the next write would block; three bytes stay queued and the mask last
requested, `EPOLLIN | EPOLLOUT | EPOLLET`, includes `EPOLLIN`. -/
theorem C2_backpressure_hysteresis_witness :
    Backpressure accepted5 5 ∧
    (accepted5.invokeAll [.data 5 ctlOk [.ok [104, 105], .ok [33, 122]] [.ok 1]]).queue 5
      = some [73, 33, 90] ∧
    ∃ m, interest 5
        (accepted5.invokeAll
          [.data 5 ctlOk [.ok [104, 105], .ok [33, 122]] [.ok 1]]).m_reactor.sys = some m ∧
      m &&& EPOLLIN ≠ 0 :=
  ⟨accepted5_backpressure, by decide,
    ((C2_backpressure_hysteresis accepted5 5
      [.data 5 ctlOk [.ok [104, 105], .ok [33, 122]] [.ok 1]] accepted5_backpressure).2.2
        [73, 33, 90] (by decide)).2.2 (by decide)⟩

theorem handleClientWrite_wouldBlock_queue (s : TCPServer) (os : EpollCtl) (fd t : Int) :
    (s.handleClientWrite os fd []).queue t = s.queue t := by
  unfold TCPServer.handleClientWrite
  split
  · rfl
  · split_ifs
    · rfl
    · unfold TCPServer.writeLoop
      exact writeStep_wouldBlock_queue s os fd _ t

/-- The high watermark is reached in the model: when one read lifts the queue of an
open connection from below `MAX_WRITE_BUFFER_SIZE` to it or above and the peer accepts
nothing, the read handler returns with the whole transformed input queued and with
write-only interest. -/
theorem handleClientData_reaches_watermark (s : TCPServer) (os : EpollCtl) (fd : Int)
    (cs : ClientState) (bs : List Nat) (hfind : mapFind s.m_clients fd = some cs)
    (hlt : cs.write_buffer.length < MAX_WRITE_BUFFER_SIZE) (hbs : bs ≠ [])
    (hge : MAX_WRITE_BUFFER_SIZE ≤ cs.write_buffer.length + bs.length) :
    (s.handleClientData os fd [.ok bs] []).queue fd
      = some (cs.write_buffer ++ bs.map transformByte) ∧
    interest fd (s.handleClientData os fd [.ok bs] []).m_reactor.sys
      = some (EPOLLOUT ||| EPOLLET) := by
  have hlen : ¬ bs.length = 0 := fun h => hbs (List.length_eq_zero.mp h)
  have hge1 : (cs.write_buffer ++ bs.map transformByte).length ≥ MAX_WRITE_BUFFER_SIZE := by
    simp only [List.length_append, List.length_map]
    exact hge
  have hq3 : ({ s with io := s.io ++ [.read fd (.ok bs)] } : TCPServer).queue fd
      = some cs.write_buffer := queue_of_find s fd cs hfind
  have hrun : s.handleClientData os fd [.ok bs] []
      = ((({ s with io := s.io ++ [.read fd (.ok bs)] } : TCPServer).setBuffer fd
          (cs.write_buffer ++ bs.map transformByte)).modify os fd
            (EPOLLOUT ||| EPOLLET)).handleClientWrite os fd [] := by
    unfold TCPServer.handleClientData
    rw [hfind]
    simp only [ge_iff_le, not_le.mpr hlt, if_false]
    unfold TCPServer.readLoop
    simp only [hlen, if_false, hge1, if_true]
  have hq : (s.handleClientData os fd [.ok bs] []).queue fd
      = some (cs.write_buffer ++ bs.map transformByte) := by
    rw [hrun, handleClientWrite_wouldBlock_queue, modify_queue, setBuffer_queue]
    simp [hq3]
  refine ⟨hq, ?_⟩
  have hb : Backpressure (s.handleClientData os fd [.ok bs] []) fd := by
    rw [hrun]
    exact handleClientWrite_backpressure _ os fd []
  apply (hb _ hq).1
  unfold RESUME_WRITE_BUFFER_SIZE
  unfold MAX_WRITE_BUFFER_SIZE at hge1
  omega

/-! ## reactor.cpp: registration -/

/-- C4: for every reactor in which `fd` is mapped to a callback `h1`, the call
`registerHandler(fd, events, h2)` throws the already-registered error and leaves the
reactor as it was: the handler table is unchanged, `fd` is still mapped to `h1`, no
`epoll_ctl` call has been issued, and a batch that reports `fd` ready still invokes `h1`
(when `fd` is the shutdown descriptor the batch drains it instead, as before). -/
theorem C4_register_twice_fails {H U : Type} (r : Reactor H) (os : EpollCtl) (fd : Int)
    (events : Nat) (h1 h2 : H) (hreg : mapFind r.m_handlers fd = some h1) :
    (r.registerHandler os fd events h2).1 = .error (.already_registered fd) ∧
    (r.registerHandler os fd events h2).2 = r ∧
    (r.registerHandler os fd events h2).2.m_handlers = r.m_handlers ∧
    mapFind (r.registerHandler os fd events h2).2.m_handlers fd = some h1 ∧
    (r.registerHandler os fd events h2).2.sys = r.sys ∧
    (∀ (call : Callback H U) (u : U) (tr : List (RunEv H)) (ev : Nat),
      (Reactor.dispatchBatch call [⟨ev, fd⟩]
          ⟨(r.registerHandler os fd events h2).2, u, tr⟩).2.trace
        = if fd = r.m_shutdownFd then tr ++ [.drain fd]
          else tr ++ [.invoke fd ev h1 (call h1 fd ev (r.m_handlers, u)).1]) := by
  have hres : r.registerHandler os fd events h2 = (.error (.already_registered fd), r) := by
    unfold Reactor.registerHandler
    simp [hreg]
  rw [hres]
  refine ⟨rfl, rfl, rfl, hreg, rfl, ?_⟩
  intro call u tr ev
  unfold Reactor.dispatchBatch
  simp only
  split_ifs with hsd
  · rfl
  · simp only [Reactor.dispatchBatch, Reactor.dispatchOne, hreg]

/-- C4 at a concrete input: descriptor 5 is registered with callback 1; registering it
again with callback 9 throws and changes nothing. -/
theorem C4_register_twice_fails_witness :
    mapFind reactor5.m_handlers 5 = some 1 ∧
    (reactor5.registerHandler ctlOk 5 EPOLLIN 9).1 = .error (.already_registered 5) ∧
    (reactor5.registerHandler ctlOk 5 EPOLLIN 9).2.m_handlers = [(5, 1), (7, 2)] :=
  ⟨by decide,
    (C4_register_twice_fails (U := Unit) reactor5 ctlOk 5 EPOLLIN 1 9 (by decide)).1,
    (C4_register_twice_fails (U := Unit) reactor5 ctlOk 5 EPOLLIN 1 9 (by decide)).2.2.1⟩

/-! ## reactor.cpp: the dispatch loop -/

theorem dispatchOne_shutdownFd {H U : Type} (call : Callback H U) (e : EpollEvent)
    (st : RunState H U) :
    (Reactor.dispatchOne call e st).reactor.m_shutdownFd = st.reactor.m_shutdownFd := by
  unfold Reactor.dispatchOne
  split <;> rfl

theorem foldl_dispatchOne_shutdownFd {H U : Type} (call : Callback H U)
    (evs : List EpollEvent) :
    ∀ st : RunState H U,
      (evs.foldl (fun a e => Reactor.dispatchOne call e a) st).reactor.m_shutdownFd
        = st.reactor.m_shutdownFd := by
  induction evs with
  | nil => intro st; rfl
  | cons e es ih =>
    intro st
    rw [List.foldl_cons, ih, dispatchOne_shutdownFd]

/-- A batch without the shutdown descriptor is dispatched entry by entry to its end and
leaves `running` set. -/
theorem dispatchBatch_no_shutdown {H U : Type} (call : Callback H U) (evs : List EpollEvent) :
    ∀ st : RunState H U, (∀ e ∈ evs, e.fd ≠ st.reactor.m_shutdownFd) →
      Reactor.dispatchBatch call evs st
        = (true, evs.foldl (fun a e => Reactor.dispatchOne call e a) st) := by
  induction evs with
  | nil => intro st _; rfl
  | cons e es ih =>
    intro st hno
    have he : e.fd ≠ st.reactor.m_shutdownFd := hno e (List.mem_cons_self _ _)
    unfold Reactor.dispatchBatch
    rw [if_neg he, List.foldl_cons]
    apply ih
    intro x hx
    rw [dispatchOne_shutdownFd]
    exact hno x (List.mem_cons_of_mem _ hx)

/-- A batch is dispatched entry by entry up to the first entry that is the shutdown
descriptor; there the loop drains, clears `running` and breaks. -/
theorem dispatchBatch_at_shutdown {H U : Type} (call : Callback H U)
    (pre : List EpollEvent) (e : EpollEvent) (post : List EpollEvent) :
    ∀ st : RunState H U, (∀ x ∈ pre, x.fd ≠ st.reactor.m_shutdownFd) →
      e.fd = st.reactor.m_shutdownFd →
      Reactor.dispatchBatch call (pre ++ e :: post) st
        = (false,
            { pre.foldl (fun a x => Reactor.dispatchOne call x a) st with
              trace := (pre.foldl (fun a x => Reactor.dispatchOne call x a) st).trace
                ++ [.drain e.fd] }) := by
  induction pre with
  | nil =>
    intro st _ he
    simp only [List.nil_append, List.foldl_nil]
    unfold Reactor.dispatchBatch
    rw [if_pos he]
  | cons x xs ih =>
    intro st hno he
    have hx : x.fd ≠ st.reactor.m_shutdownFd := hno x (List.mem_cons_self _ _)
    rw [List.cons_append]
    unfold Reactor.dispatchBatch
    rw [if_neg hx, List.foldl_cons]
    apply ih
    · intro y hy
      rw [dispatchOne_shutdownFd]
      exact hno y (List.mem_cons_of_mem _ hy)
    · rw [dispatchOne_shutdownFd]
      exact he

theorem invocations_append {H : Type} (a b : List (RunEv H)) :
    invocations (a ++ b) = invocations a ++ invocations b := by
  induction a with
  | nil => rfl
  | cons x a ih =>
    cases x with
    | wait res => simpa [invocations] using ih
    | drain fd => simpa [invocations] using ih
    | invoke fd ev h t => simp [invocations, ih]

/-- When no callback changes the handler table, the entries dispatched one by one invoke
exactly the expected calls, whichever callbacks throw. -/
theorem foldl_dispatchOne_stable {H U : Type} (call : Callback H U)
    (hstable : ∀ h fd ev tbl u, (call h fd ev (tbl, u)).2.1 = tbl) (evs : List EpollEvent) :
    ∀ st : RunState H U,
      (evs.foldl (fun a e => Reactor.dispatchOne call e a) st).reactor.m_handlers
        = st.reactor.m_handlers ∧
      invocations (evs.foldl (fun a e => Reactor.dispatchOne call e a) st).trace
        = invocations st.trace ++ expectedCalls st.reactor.m_handlers evs := by
  induction evs with
  | nil => intro st; simp [expectedCalls]
  | cons e es ih =>
    intro st
    rw [List.foldl_cons]
    have h1 := ih (Reactor.dispatchOne call e st)
    cases hf : mapFind st.reactor.m_handlers e.fd with
    | none =>
      have hd : Reactor.dispatchOne call e st = st := by
        unfold Reactor.dispatchOne
        rw [hf]
      rw [hd] at h1 ⊢
      refine ⟨h1.1, ?_⟩
      rw [h1.2]
      simp only [expectedCalls, hf]
    | some h =>
      have hd1 : (Reactor.dispatchOne call e st).reactor.m_handlers = st.reactor.m_handlers := by
        unfold Reactor.dispatchOne
        rw [hf]
        exact hstable _ _ _ _ _
      have hd2 : invocations (Reactor.dispatchOne call e st).trace
          = invocations st.trace ++ [(e.fd, e.events, h)] := by
        unfold Reactor.dispatchOne
        rw [hf]
        simp [invocations_append, invocations]
      rw [h1.1, h1.2, hd1, hd2]
      refine ⟨rfl, ?_⟩
      simp only [expectedCalls, hf, List.append_assoc, List.singleton_append]

theorem callsOn_append {H : Type} (fd : Int) (a b : List (RunEv H)) :
    callsOn fd (a ++ b) = callsOn fd a ++ callsOn fd b := by
  unfold callsOn
  rw [invocations_append, List.filter_append]

/-- Dispatching one entry never adds an invocation for a descriptor that has no stored
callback, and keeps it without one when the callbacks do not register it. -/
theorem dispatchOne_absent {H U : Type} (call : Callback H U) (fd : Int)
    (hkeep : ∀ h fd1 ev tbl u, mapFind tbl fd = none →
      mapFind (call h fd1 ev (tbl, u)).2.1 fd = none)
    (e : EpollEvent) (st : RunState H U) (habs : mapFind st.reactor.m_handlers fd = none) :
    mapFind (Reactor.dispatchOne call e st).reactor.m_handlers fd = none ∧
      callsOn fd (Reactor.dispatchOne call e st).trace = callsOn fd st.trace := by
  unfold Reactor.dispatchOne
  cases hf : mapFind st.reactor.m_handlers e.fd with
  | none => exact ⟨habs, rfl⟩
  | some h =>
    simp only
    refine ⟨hkeep _ _ _ _ _ habs, ?_⟩
    have hne : e.fd ≠ fd := by
      intro heq
      rw [heq, habs] at hf
      exact absurd hf (by simp)
    rw [callsOn_append]
    simp [callsOn, invocations, hne]

theorem dispatchBatch_absent {H U : Type} (call : Callback H U) (fd : Int)
    (hkeep : ∀ h fd1 ev tbl u, mapFind tbl fd = none →
      mapFind (call h fd1 ev (tbl, u)).2.1 fd = none)
    (evs : List EpollEvent) :
    ∀ st : RunState H U, mapFind st.reactor.m_handlers fd = none →
      mapFind (Reactor.dispatchBatch call evs st).2.reactor.m_handlers fd = none ∧
        callsOn fd (Reactor.dispatchBatch call evs st).2.trace = callsOn fd st.trace := by
  induction evs with
  | nil => intro st habs; exact ⟨habs, rfl⟩
  | cons e es ih =>
    intro st habs
    unfold Reactor.dispatchBatch
    split_ifs with hsd
    · refine ⟨habs, ?_⟩
      simp only
      rw [callsOn_append]
      simp [callsOn, invocations]
    · have h1 := dispatchOne_absent call fd hkeep e st habs
      have h2 := ih (Reactor.dispatchOne call e st) h1.1
      exact ⟨h2.1, by rw [h2.2, h1.2]⟩

theorem run_absent {H U : Type} (call : Callback H U) (fd : Int)
    (hkeep : ∀ h fd1 ev tbl u, mapFind tbl fd = none →
      mapFind (call h fd1 ev (tbl, u)).2.1 fd = none)
    (ws : List WaitRes) :
    ∀ st : RunState H U, mapFind st.reactor.m_handlers fd = none →
      callsOn fd (Reactor.run call st ws).2.trace = callsOn fd st.trace := by
  induction ws with
  | nil => intro st _; rfl
  | cons w ws ih =>
    intro st habs
    have hlog : callsOn fd (st.trace ++ [RunEv.wait w]) = callsOn fd st.trace := by
      rw [callsOn_append]
      simp [callsOn, invocations]
    unfold Reactor.run
    cases w with
    | fail e =>
      simp only
      split_ifs
      · have hrec := ih ⟨st.reactor, st.user, st.trace ++ [.wait (.fail e)]⟩ habs
        rw [hrec]
        exact hlog
      · exact hlog
    | ready evs =>
      simp only
      have hb := dispatchBatch_absent call fd hkeep evs
        ({ st with trace := st.trace ++ [.wait (.ready evs)] }) habs
      split_ifs
      · rw [ih _ hb.1, hb.2]
        exact hlog
      · rw [hb.2]
        exact hlog

theorem dispatchOne_callsOn_other {H U : Type} (call : Callback H U) (fd : Int)
    (e : EpollEvent) (st : RunState H U) (hne : e.fd ≠ fd) :
    callsOn fd (Reactor.dispatchOne call e st).trace = callsOn fd st.trace := by
  unfold Reactor.dispatchOne
  split
  · simp only
    rw [callsOn_append]
    simp [callsOn, invocations, hne]
  · rfl

theorem dispatchBatch_shutdownFd {H U : Type} (call : Callback H U) (evs : List EpollEvent) :
    ∀ st : RunState H U,
      (Reactor.dispatchBatch call evs st).2.reactor.m_shutdownFd = st.reactor.m_shutdownFd := by
  induction evs with
  | nil => intro st; rfl
  | cons e es ih =>
    intro st
    unfold Reactor.dispatchBatch
    split_ifs
    · rfl
    · rw [ih, dispatchOne_shutdownFd]

theorem dispatchBatch_never_shutdown {H U : Type} (call : Callback H U)
    (evs : List EpollEvent) :
    ∀ st : RunState H U,
      callsOn st.reactor.m_shutdownFd (Reactor.dispatchBatch call evs st).2.trace
        = callsOn st.reactor.m_shutdownFd st.trace := by
  induction evs with
  | nil => intro st; rfl
  | cons e es ih =>
    intro st
    unfold Reactor.dispatchBatch
    split_ifs with hsd
    · simp only
      rw [callsOn_append]
      simp [callsOn, invocations]
    · have h1 := ih (Reactor.dispatchOne call e st)
      rw [dispatchOne_shutdownFd] at h1
      rw [h1]
      exact dispatchOne_callsOn_other call _ e st hsd

theorem run_never_shutdown {H U : Type} (call : Callback H U) (ws : List WaitRes) :
    ∀ st : RunState H U,
      callsOn st.reactor.m_shutdownFd (Reactor.run call st ws).2.trace
        = callsOn st.reactor.m_shutdownFd st.trace := by
  induction ws with
  | nil => intro st; rfl
  | cons w ws ih =>
    intro st
    have hlog : callsOn st.reactor.m_shutdownFd (st.trace ++ [RunEv.wait w])
        = callsOn st.reactor.m_shutdownFd st.trace := by
      rw [callsOn_append]
      simp [callsOn, invocations]
    unfold Reactor.run
    cases w with
    | fail e =>
      simp only
      split_ifs
      · have hrec := ih ⟨st.reactor, st.user, st.trace ++ [.wait (.fail e)]⟩
        simp only at hrec
        rw [hrec]
        exact hlog
      · exact hlog
    | ready evs =>
      simp only
      have hb := dispatchBatch_never_shutdown call evs
        ⟨st.reactor, st.user, st.trace ++ [.wait (.ready evs)]⟩
      have hsd := dispatchBatch_shutdownFd call evs
        ⟨st.reactor, st.user, st.trace ++ [.wait (.ready evs)]⟩
      simp only at hb hsd
      split_ifs
      · have hrec := ih (Reactor.dispatchBatch call evs
          ⟨st.reactor, st.user, st.trace ++ [.wait (.ready evs)]⟩).2
        rw [hsd] at hrec
        rw [hrec, hb]
        exact hlog
      · rw [hb]
        exact hlog

/-- The entries dispatched one by one add only callback invocations to the trace, each
for the descriptor of one of the entries. -/
theorem foldl_dispatchOne_trace {H U : Type} (call : Callback H U) (sd : Int)
    (evs : List EpollEvent) :
    ∀ st : RunState H U, (∀ x ∈ evs, x.fd ≠ sd) →
      ∃ calls, (evs.foldl (fun a e => Reactor.dispatchOne call e a) st).trace
          = st.trace ++ calls ∧
        ∀ c ∈ calls, ∃ fd ev h t, c = RunEv.invoke fd ev h t ∧ fd ≠ sd := by
  induction evs with
  | nil => intro st _; exact ⟨[], by simp, by simp⟩
  | cons e es ih =>
    intro st hno
    rw [List.foldl_cons]
    obtain ⟨calls, hc1, hc2⟩ := ih (Reactor.dispatchOne call e st)
      (fun x hx => hno x (List.mem_cons_of_mem _ hx))
    have he : e.fd ≠ sd := hno e (List.mem_cons_self _ _)
    cases hf : mapFind st.reactor.m_handlers e.fd with
    | none =>
      have hd : Reactor.dispatchOne call e st = st := by
        unfold Reactor.dispatchOne
        rw [hf]
      rw [hd] at hc1 ⊢
      exact ⟨calls, hc1, hc2⟩
    | some h =>
      have hd : (Reactor.dispatchOne call e st).trace = st.trace
          ++ [.invoke e.fd e.events h (call h e.fd e.events (st.reactor.m_handlers, st.user)).1] := by
        unfold Reactor.dispatchOne
        rw [hf]
      refine ⟨.invoke e.fd e.events h (call h e.fd e.events (st.reactor.m_handlers, st.user)).1
        :: calls, ?_, ?_⟩
      · rw [hc1, hd]
        simp
      · intro c hc
        rcases List.mem_cons.mp hc with hc | hc
        · exact ⟨_, _, _, _, hc, he⟩
        · exact hc2 c hc

theorem split_at_first {α : Type} (p : α → Prop) (l : List α) (h : ∃ x ∈ l, p x) :
    ∃ pre x post, l = pre ++ x :: post ∧ p x ∧ ∀ y ∈ pre, ¬ p y := by
  classical
  induction l with
  | nil =>
    obtain ⟨x, hx, _⟩ := h
    exact absurd hx (List.not_mem_nil x)
  | cons a l ih =>
    by_cases ha : p a
    · exact ⟨[], a, l, rfl, ha, by simp⟩
    · obtain ⟨x, hx, hpx⟩ := h
      rcases List.mem_cons.mp hx with hxa | hxl
      · rw [hxa] at hpx
        exact absurd hpx ha
      · obtain ⟨pre, y, post, hl, hy, hpre⟩ := ih ⟨x, hxl, hpx⟩
        refine ⟨a :: pre, y, post, by rw [hl]; rfl, hy, ?_⟩
        intro z hz
        rcases List.mem_cons.mp hz with hza | hzp
        · rw [hza]; exact ha
        · exact hpre z hzp

/-- The run on a batch that holds the shutdown descriptor: what was reported before
its first occurrence is dispatched, then the loop drains and `run` returns. -/
theorem run_at_shutdown {H U : Type} (call : Callback H U) (st : RunState H U)
    (pre : List EpollEvent) (e : EpollEvent) (post : List EpollEvent) (ws : List WaitRes)
    (hpre : ∀ x ∈ pre, x.fd ≠ st.reactor.m_shutdownFd)
    (he : e.fd = st.reactor.m_shutdownFd) :
    Reactor.run call st (.ready (pre ++ e :: post) :: ws)
      = (.returned,
          { pre.foldl (fun a x => Reactor.dispatchOne call x a)
              ⟨st.reactor, st.user, st.trace ++ [.wait (.ready (pre ++ e :: post))]⟩ with
            trace := (pre.foldl (fun a x => Reactor.dispatchOne call x a)
              ⟨st.reactor, st.user, st.trace ++ [.wait (.ready (pre ++ e :: post))]⟩).trace
                ++ [.drain e.fd] }) := by
  have hb := dispatchBatch_at_shutdown call pre e post
    (⟨st.reactor, st.user, st.trace ++ [RunEv.wait (WaitRes.ready (pre ++ e :: post))]⟩ :
      RunState H U) hpre he
  unfold Reactor.run
  simp only
  rw [hb]
  simp

/-! ## C5: unregistering a descriptor -/

theorem unregisterHandler_sys {H : Type} (r : Reactor H) (os : EpollCtl) (fd : Int) :
    (r.unregisterHandler os fd).sys = r.sys ++ [⟨.del, fd, 0, os .del fd 0⟩] := by
  unfold Reactor.unregisterHandler Reactor.epoll_ctl
  simp only
  split_ifs <;> rfl

theorem unregisterHandler_handlers {H : Type} (r : Reactor H) (os : EpollCtl) (fd : Int) :
    (r.unregisterHandler os fd).m_handlers
      = if (os .del fd 0).ret = -1 then r.m_handlers else mapErase r.m_handlers fd := by
  unfold Reactor.unregisterHandler Reactor.epoll_ctl
  simp only
  split_ifs <;> rfl

/-- C5, as the code has it: when the OS accepts the removal request (`epoll_ctl` does not
answer `-1`), after `unregisterHandler(fd)` the descriptor is absent from the handler
table, the removal from the readiness context has been requested, the entries of the
other descriptors are as before, and no later batch invokes a callback for `fd`, as long
as no callback registers `fd` again. -/
theorem C5_unregister_removes_when_accepted {H U : Type} (r : Reactor H) (os : EpollCtl)
    (fd : Int) (call : Callback H U) (u : U) (tr : List (RunEv H)) (ws : List WaitRes)
    (hok : (os .del fd 0).ret ≠ -1)
    (hkeep : ∀ h fd1 ev tbl u1, mapFind tbl fd = none →
      mapFind (call h fd1 ev (tbl, u1)).2.1 fd = none) :
    mapFind (r.unregisterHandler os fd).m_handlers fd = none ∧
    (r.unregisterHandler os fd).sys = r.sys ++ [⟨.del, fd, 0, os .del fd 0⟩] ∧
    (∀ fd1, fd1 ≠ fd →
      mapFind (r.unregisterHandler os fd).m_handlers fd1 = mapFind r.m_handlers fd1) ∧
    callsOn fd (Reactor.run call ⟨r.unregisterHandler os fd, u, tr⟩ ws).2.trace
      = callsOn fd tr := by
  have habs : mapFind (r.unregisterHandler os fd).m_handlers fd = none := by
    rw [unregisterHandler_handlers, if_neg hok, mapFind_mapErase]
    simp
  refine ⟨habs, unregisterHandler_sys r os fd, ?_, ?_⟩
  · intro fd1 hne
    rw [unregisterHandler_handlers, if_neg hok, mapFind_mapErase, if_neg hne]
  · exact run_absent call fd hkeep ws ⟨r.unregisterHandler os fd, u, tr⟩ habs

/-- C5 at a concrete input: the OS accepts the removal of descriptor 5; a later batch
that reports 5 and 7 invokes the callback of 7 only. -/
theorem C5_unregister_removes_when_accepted_witness :
    mapFind (reactor5.unregisterHandler ctlOk 5).m_handlers 5 = none ∧
    callsOn 5 (Reactor.run callReturn ⟨reactor5.unregisterHandler ctlOk 5, (), []⟩
      [.ready [⟨EPOLLIN, 5⟩, ⟨EPOLLIN, 7⟩]]).2.trace = [] ∧
    invocations (Reactor.run callReturn ⟨reactor5.unregisterHandler ctlOk 5, (), []⟩
      [.ready [⟨EPOLLIN, 5⟩, ⟨EPOLLIN, 7⟩]]).2.trace = [(7, EPOLLIN, 2)] :=
  ⟨(C5_unregister_removes_when_accepted reactor5 ctlOk 5 callReturn () []
      [.ready [⟨EPOLLIN, 5⟩, ⟨EPOLLIN, 7⟩]] (by decide) (fun _ _ _ _ _ h => h)).1,
    (C5_unregister_removes_when_accepted reactor5 ctlOk 5 callReturn () []
      [.ready [⟨EPOLLIN, 5⟩, ⟨EPOLLIN, 7⟩]] (by decide) (fun _ _ _ _ _ h => h)).2.2.2,
    by decide⟩

/-- C5 as stated fails: the OS refuses the removal of descriptor 5 (`epoll_ctl` answers
`-1`), `unregisterHandler(5)` returns with 5 still mapped to callback 1, and a later batch
that reports 5 invokes that callback. -/
theorem C5_counterexample_removal_refused :
    (ctlFail .del 5 0).ret = -1 ∧
    mapFind (reactor5.unregisterHandler ctlFail 5).m_handlers 5 = some 1 ∧
    callsOn 5 (Reactor.run callReturn ⟨reactor5.unregisterHandler ctlFail 5, (), []⟩
      [.ready [⟨EPOLLIN, 5⟩]]).2.trace = [(5, EPOLLIN, 1)] := by
  decide

/-! ## C6: the shutdown descriptor ends the run -/

/-- C6: for every batch that contains the shutdown descriptor, `run` returns on that
batch whatever the rest of the wait script is: after the wait the trace holds callback
invocations, none of them for the shutdown descriptor, and ends with the draining read
of the shutdown descriptor, so no wait and no callback follows the drain; and the run
has passed the shutdown descriptor to no callback. -/
theorem C6_cancellation_ends_run {H U : Type} (call : Callback H U) (st : RunState H U)
    (evs : List EpollEvent) (ws : List WaitRes)
    (hin : ∃ e ∈ evs, e.fd = st.reactor.m_shutdownFd) :
    (Reactor.run call st (.ready evs :: ws)).1 = .returned ∧
    Reactor.run call st (.ready evs :: ws) = Reactor.run call st [.ready evs] ∧
    (∃ calls, (Reactor.run call st (.ready evs :: ws)).2.trace
        = st.trace ++ .wait (.ready evs) :: calls ++ [.drain st.reactor.m_shutdownFd] ∧
      ∀ c ∈ calls, ∃ fd ev h t, c = RunEv.invoke fd ev h t ∧ fd ≠ st.reactor.m_shutdownFd) ∧
    callsOn st.reactor.m_shutdownFd (Reactor.run call st (.ready evs :: ws)).2.trace
      = callsOn st.reactor.m_shutdownFd st.trace := by
  obtain ⟨pre, e, post, hsplit, he, hpre⟩ :=
    split_at_first (fun e : EpollEvent => e.fd = st.reactor.m_shutdownFd) evs hin
  subst hsplit
  have hrun := run_at_shutdown call st pre e post ws hpre he
  have hrun1 := run_at_shutdown call st pre e post [] hpre he
  refine ⟨by rw [hrun], by rw [hrun, hrun1], ?_, run_never_shutdown call _ st⟩
  obtain ⟨calls, hc1, hc2⟩ := foldl_dispatchOne_trace call st.reactor.m_shutdownFd pre
    ⟨st.reactor, st.user, st.trace ++ [.wait (.ready (pre ++ e :: post))]⟩ hpre
  refine ⟨calls, ?_, hc2⟩
  rw [hrun]
  simp only
  rw [hc1, he]
  simp

/-- C6 at a concrete input: the batch reports 5, the shutdown descriptor 6 and 7; the
callback of 5 runs, 6 is drained and `run` returns although another batch is scripted. -/
theorem C6_cancellation_ends_run_witness :
    (∃ e ∈ [(⟨EPOLLIN, 5⟩ : EpollEvent), ⟨EPOLLIN, 6⟩, ⟨EPOLLIN, 7⟩],
      e.fd = reactor5.m_shutdownFd) ∧
    (Reactor.run callReturn ⟨reactor5, (), []⟩
      [.ready [⟨EPOLLIN, 5⟩, ⟨EPOLLIN, 6⟩, ⟨EPOLLIN, 7⟩], .ready [⟨EPOLLIN, 7⟩]]).1
        = .returned ∧
    (Reactor.run callReturn ⟨reactor5, (), []⟩
      [.ready [⟨EPOLLIN, 5⟩, ⟨EPOLLIN, 6⟩, ⟨EPOLLIN, 7⟩], .ready [⟨EPOLLIN, 7⟩]]).2.trace
        = [.wait (.ready [⟨EPOLLIN, 5⟩, ⟨EPOLLIN, 6⟩, ⟨EPOLLIN, 7⟩]),
           .invoke 5 EPOLLIN 1 false, .drain 6] :=
  ⟨⟨⟨EPOLLIN, 6⟩, by decide, by decide⟩,
    (C6_cancellation_ends_run callReturn ⟨reactor5, (), []⟩
      [⟨EPOLLIN, 5⟩, ⟨EPOLLIN, 6⟩, ⟨EPOLLIN, 7⟩] [.ready [⟨EPOLLIN, 7⟩]]
      ⟨⟨EPOLLIN, 6⟩, by decide, by decide⟩).1,
    by decide⟩

/-! ## C7: what is dispatched of the batch that holds the shutdown descriptor -/

/-- C7, as the code has it: when the shutdown descriptor appears in a batch, `run`
dispatches, one by one and in the reported order, the entries reported before its first
occurrence (each entry with a stored callback at its turn gets that callback invoked once
with its readiness bits), then drains and returns; the entries reported after it are not
dispatched, so the outcome is the one of the batch cut after the shutdown descriptor.
When no callback changes the handler table, the invocations are exactly the expected
calls of the entries before the shutdown descriptor. -/
theorem C7_dispatch_stops_at_cancellation {H U : Type} (call : Callback H U)
    (st : RunState H U) (pre : List EpollEvent) (e : EpollEvent) (post : List EpollEvent)
    (ws : List WaitRes)
    (hpre : ∀ x ∈ pre, x.fd ≠ st.reactor.m_shutdownFd)
    (he : e.fd = st.reactor.m_shutdownFd) :
    Reactor.run call st (.ready (pre ++ e :: post) :: ws)
      = (.returned,
          { pre.foldl (fun a x => Reactor.dispatchOne call x a)
              ⟨st.reactor, st.user, st.trace ++ [.wait (.ready (pre ++ e :: post))]⟩ with
            trace := (pre.foldl (fun a x => Reactor.dispatchOne call x a)
              ⟨st.reactor, st.user, st.trace ++ [.wait (.ready (pre ++ e :: post))]⟩).trace
                ++ [.drain e.fd] }) ∧
    ((∀ h fd ev tbl u, (call h fd ev (tbl, u)).2.1 = tbl) →
      invocations (Reactor.run call st (.ready (pre ++ e :: post) :: ws)).2.trace
        = invocations st.trace ++ expectedCalls st.reactor.m_handlers pre) := by
  have hrun := run_at_shutdown call st pre e post ws hpre he
  refine ⟨hrun, ?_⟩
  intro hstable
  have hs := foldl_dispatchOne_stable call hstable pre
    ⟨st.reactor, st.user, st.trace ++ [.wait (.ready (pre ++ e :: post))]⟩
  rw [hrun]
  simp only
  rw [invocations_append, hs.2, invocations_append]
  simp [invocations]

/-- C7 at a concrete input: the batch reports 5, then the shutdown descriptor 6, then 7;
only the callback of 5 is invoked. -/
theorem C7_dispatch_stops_at_cancellation_witness :
    invocations (Reactor.run callReturn ⟨reactor5, (), []⟩
      [.ready ([⟨EPOLLIN, 5⟩] ++ ⟨EPOLLIN, 6⟩ :: [⟨EPOLLIN, 7⟩])]).2.trace
        = [] ++ expectedCalls reactor5.m_handlers [⟨EPOLLIN, 5⟩] ∧
    expectedCalls reactor5.m_handlers [⟨EPOLLIN, 5⟩] = [(5, EPOLLIN, 1)] :=
  ⟨(C7_dispatch_stops_at_cancellation callReturn ⟨reactor5, (), []⟩
      [⟨EPOLLIN, 5⟩] ⟨EPOLLIN, 6⟩ [⟨EPOLLIN, 7⟩] [] (by decide) (by decide)).2
      (fun _ _ _ _ _ => rfl),
    by decide⟩

/-- C7 as stated fails: the batch reports the shutdown descriptor 6 and then descriptor
7, which has the stored callback 2; `run` drains 6 and returns without invoking it. -/
theorem C7_counterexample_entry_after_cancellation :
    mapFind reactor5.m_handlers 7 = some 2 ∧
    (Reactor.run callReturn ⟨reactor5, (), []⟩
      [.ready [⟨EPOLLIN, 6⟩, ⟨EPOLLIN, 7⟩]]).1 = .returned ∧
    (Reactor.run callReturn ⟨reactor5, (), []⟩
      [.ready [⟨EPOLLIN, 6⟩, ⟨EPOLLIN, 7⟩]]).2.trace
        = [.wait (.ready [⟨EPOLLIN, 6⟩, ⟨EPOLLIN, 7⟩]), .drain 6] ∧
    callsOn 7 (Reactor.run callReturn ⟨reactor5, (), []⟩
      [.ready [⟨EPOLLIN, 6⟩, ⟨EPOLLIN, 7⟩]]).2.trace = [] := by
  decide

/-! ## C8: a callback that throws does not stop the loop -/

/-- C8: for every batch without the shutdown descriptor and all callbacks, throwing or
not, `run` dispatches every entry of the batch, one by one in the reported order (each
entry with a stored callback at its turn gets that callback invoked once), and goes on
with the next wait: the run continues on the rest of the wait script from the state
after the batch, and is blocked in the next wait when the script ends there. When no
callback changes the handler table, the invocations are exactly the expected calls of
the whole batch. -/
theorem C8_handler_failure_isolated {H U : Type} (call : Callback H U) (st : RunState H U)
    (evs : List EpollEvent) (ws : List WaitRes)
    (hno : ∀ e ∈ evs, e.fd ≠ st.reactor.m_shutdownFd) :
    Reactor.run call st (.ready evs :: ws)
      = Reactor.run call
          (evs.foldl (fun a e => Reactor.dispatchOne call e a)
            ⟨st.reactor, st.user, st.trace ++ [.wait (.ready evs)]⟩) ws ∧
    (Reactor.run call st [.ready evs]).1 = .waiting ∧
    ((∀ h fd ev tbl u, (call h fd ev (tbl, u)).2.1 = tbl) →
      invocations (Reactor.run call st [.ready evs]).2.trace
        = invocations st.trace ++ expectedCalls st.reactor.m_handlers evs) := by
  have hb := dispatchBatch_no_shutdown call evs
    (⟨st.reactor, st.user, st.trace ++ [RunEv.wait (WaitRes.ready evs)]⟩ : RunState H U) hno
  have hrun : ∀ ws1, Reactor.run call st (.ready evs :: ws1)
      = Reactor.run call
          (evs.foldl (fun a e => Reactor.dispatchOne call e a)
            ⟨st.reactor, st.user, st.trace ++ [.wait (.ready evs)]⟩) ws1 := by
    intro ws1
    conv => lhs; unfold Reactor.run
    simp only
    rw [hb]
    simp
  refine ⟨hrun ws, ?_, ?_⟩
  · rw [hrun []]
    rfl
  · intro hstable
    have hs := foldl_dispatchOne_stable call hstable evs
      ⟨st.reactor, st.user, st.trace ++ [.wait (.ready evs)]⟩
    rw [hrun []]
    unfold Reactor.run
    simp only
    rw [hs.2, invocations_append]
    simp [invocations]

/-- C8 at a concrete input: the batch reports 5 and 7; the callback of 5 throws, the
callback of 7 is invoked all the same, and the run is blocked in the next wait. -/
theorem C8_handler_failure_isolated_witness :
    (Reactor.run callThrow1 ⟨reactor5, (), []⟩ [.ready [⟨EPOLLIN, 5⟩, ⟨EPOLLIN, 7⟩]]).1
      = .waiting ∧
    (Reactor.run callThrow1 ⟨reactor5, (), []⟩ [.ready [⟨EPOLLIN, 5⟩, ⟨EPOLLIN, 7⟩]]).2.trace
      = [.wait (.ready [⟨EPOLLIN, 5⟩, ⟨EPOLLIN, 7⟩]),
         .invoke 5 EPOLLIN 1 true, .invoke 7 EPOLLIN 2 false] :=
  ⟨(C8_handler_failure_isolated callThrow1 ⟨reactor5, (), []⟩
      [⟨EPOLLIN, 5⟩, ⟨EPOLLIN, 7⟩] [] (by decide)).2.1,
    by decide⟩

/-! ## C9: teardown of one connection -/

theorem cleanupClient_handlers (s : TCPServer) (os : EpollCtl) (fd : Int) :
    (s.cleanupClient os fd).m_reactor.m_handlers
      = if (os .del fd 0).ret = -1 then s.m_reactor.m_handlers
        else mapErase s.m_reactor.m_handlers fd := by
  unfold TCPServer.cleanupClient
  simp only
  exact unregisterHandler_handlers s.m_reactor os fd

/-- C9, as the code has it: for every open connection `fd` (its state holds the socket
of descriptor `fd` and a queue) and whatever the OS answers to the removal request, after
`cleanupClient(fd)` the descriptor is absent from the connection table and its socket
has been destroyed, which closed the descriptor exactly once (the one close call added
to the history), and the handler-table entry and the connection state of every other
descriptor are as before; when the OS accepts the removal from the readiness context,
`fd` is absent from the handler table of the reactor too; when the OS refuses it
(`epoll_ctl` answers `-1`), the handler table is left as it was. -/
theorem C9_teardown_removes_connection (s : TCPServer) (os : EpollCtl) (fd : Int)
    (q : List Nat)
    (hopen : mapFind s.m_clients fd = some { socket := some ⟨fd⟩, write_buffer := q })
    (hfd : fd ≠ -1) :
    mapFind (s.cleanupClient os fd).m_clients fd = none ∧
    (s.cleanupClient os fd).io = s.io ++ [.close fd] ∧
    (∀ fd1, fd1 ≠ fd →
      mapFind (s.cleanupClient os fd).m_reactor.m_handlers fd1
        = mapFind s.m_reactor.m_handlers fd1 ∧
      mapFind (s.cleanupClient os fd).m_clients fd1 = mapFind s.m_clients fd1) ∧
    ((os .del fd 0).ret ≠ -1 →
      mapFind (s.cleanupClient os fd).m_reactor.m_handlers fd = none) ∧
    ((os .del fd 0).ret = -1 →
      (s.cleanupClient os fd).m_reactor.m_handlers = s.m_reactor.m_handlers) := by
  refine ⟨?_, ?_, ?_, ?_, ?_⟩
  · unfold TCPServer.cleanupClient
    simp only
    rw [mapFind_mapErase]
    simp
  · unfold TCPServer.cleanupClient
    simp only
    rw [hopen]
    simp [ClientState.dtor, Socket.dtor, hfd]
  · intro fd1 hne
    constructor
    · rw [cleanupClient_handlers]
      split_ifs
      · rfl
      · rw [mapFind_mapErase, if_neg hne]
    · unfold TCPServer.cleanupClient
      simp only
      rw [mapFind_mapErase, if_neg hne]
  · intro hok
    rw [cleanupClient_handlers, if_neg hok, mapFind_mapErase]
    simp
  · intro hrefused
    rw [cleanupClient_handlers, if_pos hrefused]

/-- C9 at a concrete input: the connection 5 is torn down and the OS accepts the
removal: 5 is gone from both tables, closed once, the listening entry 3 is kept. -/
theorem C9_teardown_removes_connection_witness :
    mapFind accepted5.m_clients 5 = some { socket := some ⟨5⟩, write_buffer := [] } ∧
    mapFind (accepted5.cleanupClient ctlOk 5).m_clients 5 = none ∧
    (accepted5.cleanupClient ctlOk 5).io = accepted5.io ++ [.close 5] ∧
    mapFind (accepted5.cleanupClient ctlOk 5).m_reactor.m_handlers 5 = none ∧
    mapFind (accepted5.cleanupClient ctlOk 5).m_reactor.m_handlers 3 = some .listen :=
  ⟨by decide,
    (C9_teardown_removes_connection accepted5 ctlOk 5 [] (by decide) (by decide)).1,
    (C9_teardown_removes_connection accepted5 ctlOk 5 [] (by decide) (by decide)).2.1,
    (C9_teardown_removes_connection accepted5 ctlOk 5 [] (by decide) (by decide)).2.2.2.1
      (by decide),
    by decide⟩

/-- C9 as stated fails: the OS refuses the removal of the open connection 5 from the
readiness context; `cleanupClient(5)` erases the connection state and closes the socket,
but 5 is still in the handler table of the reactor. -/
theorem C9_counterexample_removal_refused :
    mapFind accepted5.m_clients 5 = some { socket := some ⟨5⟩, write_buffer := [] } ∧
    (ctlFail .del 5 0).ret = -1 ∧
    mapFind (accepted5.cleanupClient ctlFail 5).m_clients 5 = none ∧
    mapFind (accepted5.cleanupClient ctlFail 5).m_reactor.m_handlers 5 = some .client := by
  decide

/-! ## C10: moving a socket handle -/

/-- C10: for every socket `s1` holding descriptor `d` and every distinct socket `s2`:
after move-constructing `s2` from `s1`, and after move-assigning `s1` into `s2`, `s1`
holds `-1` and `s2` holds `d`; the construction closes nothing, the assignment closes
exactly the descriptor that `s2` held before, once, if it held one; destroying a handle
that holds `-1` closes nothing; when `d` is a descriptor (not `-1`) that `s2` did not
hold as well, `d` has been closed exactly once after the move and the destruction of both
handles, in either order; and a self move-assignment changes nothing. -/
theorem C10_socket_move_transfers_ownership (w : SocketStore) (s1 s2 : Nat)
    (hne : s1 ≠ s2) :
    (((w.moveConstruct s2 s1).obj s1).getFd = -1 ∧
      ((w.moveConstruct s2 s1).obj s2).getFd = (w.obj s1).getFd ∧
      (w.moveConstruct s2 s1).closed = w.closed) ∧
    (((w.moveAssign s2 s1).obj s1).getFd = -1 ∧
      ((w.moveAssign s2 s1).obj s2).getFd = (w.obj s1).getFd ∧
      (w.moveAssign s2 s1).closed
        = w.closed ++ (if (w.obj s2).getFd ≠ -1 then [(w.obj s2).getFd] else [])) ∧
    (∀ (v : SocketStore) (a : Nat), (v.obj a).getFd = -1 → (v.destroy a).closed = v.closed) ∧
    ((w.obj s1).getFd ≠ -1 →
      (((w.moveConstruct s2 s1).destroy s2).destroy s1).closed.count (w.obj s1).getFd
        = w.closed.count (w.obj s1).getFd + 1 ∧
      (((w.moveConstruct s2 s1).destroy s1).destroy s2).closed.count (w.obj s1).getFd
        = w.closed.count (w.obj s1).getFd + 1) ∧
    ((w.obj s1).getFd ≠ -1 → (w.obj s2).getFd ≠ (w.obj s1).getFd →
      (((w.moveAssign s2 s1).destroy s2).destroy s1).closed.count (w.obj s1).getFd
        = w.closed.count (w.obj s1).getFd + 1 ∧
      (((w.moveAssign s2 s1).destroy s1).destroy s2).closed.count (w.obj s1).getFd
        = w.closed.count (w.obj s1).getFd + 1) ∧
    w.moveAssign s1 s1 = w := by
  have hne2 : s2 ≠ s1 := fun e => hne e.symm
  refine ⟨?_, ?_, ?_, ?_, ?_, ?_⟩
  · simp [SocketStore.moveConstruct, SocketStore.setFd, Socket.getFd, hne, hne2]
  · unfold SocketStore.moveAssign
    rw [if_pos hne2]
    by_cases h2 : (w.obj s2).m_fd = -1
    · simp [SocketStore.setFd, Socket.getFd, hne, hne2, h2]
    · simp [SocketStore.setFd, Socket.getFd, hne, hne2, h2]
  · intro v a ha
    simp only [Socket.getFd] at ha
    simp [SocketStore.destroy, Socket.dtor, ha]
  · intro hd
    simp only [Socket.getFd] at hd
    simp [SocketStore.moveConstruct, SocketStore.setFd, SocketStore.destroy, Socket.dtor,
      Socket.getFd, hne, hne2, hd, List.count_append]
  · intro hd hold
    simp only [Socket.getFd] at hd hold
    unfold SocketStore.moveAssign
    rw [if_pos hne2]
    by_cases h2 : (w.obj s2).m_fd = -1
    · simp [SocketStore.setFd, SocketStore.destroy, Socket.dtor,
        Socket.getFd, hne, hne2, hd, h2, List.count_append]
    · simp [SocketStore.setFd, SocketStore.destroy, Socket.dtor,
        Socket.getFd, hne, hne2, hd, h2, hold, List.count_append]
  · simp [SocketStore.moveAssign]

/-- C10 at a concrete input: the socket at address 0 holds 8, the one at address 1
holds 9; move-assigning the first into the second closes 9 and hands 8 over, and after
both handles are destroyed 8 has been closed once. -/
theorem C10_socket_move_transfers_ownership_witness :
    ((store89.moveAssign 1 0).obj 0).getFd = -1 ∧
    ((store89.moveAssign 1 0).obj 1).getFd = 8 ∧
    (store89.moveAssign 1 0).closed = [9] ∧
    (((store89.moveAssign 1 0).destroy 1).destroy 0).closed = [9, 8] :=
  ⟨(C10_socket_move_transfers_ownership store89 0 1 (by decide)).2.1.1,
    (C10_socket_move_transfers_ownership store89 0 1 (by decide)).2.1.2.1,
    by decide, by decide⟩

/-! ## C11: the accept loop -/

theorem registerHandler_fresh {H : Type} (r : Reactor H) (os : EpollCtl) (f : Int)
    (ev : Nat) (h : H) (hnew : mapFind r.m_handlers f = none)
    (hadd : (os .add f ev).ret ≠ -1) :
    r.registerHandler os f ev h
      = (.ok (),
          { r with
            sys := r.sys ++ [⟨.add, f, ev, os .add f ev⟩]
            m_handlers := mapAssign r.m_handlers f h }) := by
  unfold Reactor.registerHandler Reactor.epoll_ctl
  simp [hnew, hadd]

/-- The server after one round of the accept loop that accepted `f`, made it
non-blocking, stored its state and registered its callback. -/
theorem handleNewConnection_ok_step (s : TCPServer) (os : EpollCtl) (fc : Fcntl) (fd f : Int)
    (rest : List AcceptRes) (hnew : mapFind s.m_reactor.m_handlers f = none)
    (hnb : Socket.setNonBlocking ⟨f⟩ fc = .ok ())
    (hadd : (os .add f (EPOLLIN ||| EPOLLET)).ret ≠ -1) :
    TCPServer.handleNewConnection os fc fd s (.ok f :: rest)
      = TCPServer.handleNewConnection os fc fd
          { s.storeClient f with
            m_reactor :=
              { s.m_reactor with
                sys := s.m_reactor.sys ++
                  [⟨.add, f, EPOLLIN ||| EPOLLET, os .add f (EPOLLIN ||| EPOLLET)⟩]
                m_handlers := mapAssign s.m_reactor.m_handlers f .client } } rest := by
  have hreg := registerHandler_fresh (s.storeClient f).m_reactor os f (EPOLLIN ||| EPOLLET)
    ServerHandler.client hnew hadd
  conv => lhs; unfold TCPServer.handleNewConnection
  simp only [hnb, hreg]
  rfl

/-- An accept answer that reports an error ends the accept loop: what is scripted after
it is never asked for. -/
theorem handleNewConnection_fail_cut (os : EpollCtl) (fc : Fcntl) (fd : Int) (e : Nat)
    (rest : List AcceptRes) (pre : List AcceptRes) :
    ∀ s : TCPServer,
      TCPServer.handleNewConnection os fc fd s (pre ++ .fail e :: rest)
        = TCPServer.handleNewConnection os fc fd s pre := by
  induction pre with
  | nil =>
    intro s
    simp only [List.nil_append]
    unfold TCPServer.handleNewConnection
    simp
  | cons a pre ih =>
    intro s
    rw [List.cons_append]
    cases a with
    | fail e1 =>
      unfold TCPServer.handleNewConnection
      rfl
    | ok f =>
      unfold TCPServer.handleNewConnection
      simp only
      split
      · rfl
      · split
        · rfl
        · exact ih _

theorem storeClient_clients (s : TCPServer) (f g : Int) :
    mapFind (s.storeClient f).m_clients g
      = if g = f then some { socket := some ⟨f⟩, write_buffer := [] }
        else mapFind s.m_clients g := by
  unfold TCPServer.storeClient
  simp only
  rw [mapFind_mapAssign]

/-- The accept loop on a script of distinct new descriptors, each made non-blocking and
accepted by the readiness context. -/
theorem handleNewConnection_all (os : EpollCtl) (fc : Fcntl) (fd : Int) (fds : List Int) :
    ∀ s : TCPServer, fds.Nodup →
      (∀ f ∈ fds, mapFind s.m_reactor.m_handlers f = none) →
      (∀ f ∈ fds, Socket.setNonBlocking ⟨f⟩ fc = .ok ()) →
      (∀ f ∈ fds, (os .add f (EPOLLIN ||| EPOLLET)).ret ≠ -1) →
      (TCPServer.handleNewConnection os fc fd s (fds.map .ok)).1 = .ok () ∧
      (∀ f ∈ fds,
        mapFind (TCPServer.handleNewConnection os fc fd s (fds.map .ok)).2.m_clients f
          = some { socket := some ⟨f⟩, write_buffer := [] } ∧
        mapFind (TCPServer.handleNewConnection os fc fd s (fds.map .ok)).2.m_reactor.m_handlers f
          = some .client ∧
        interest f (TCPServer.handleNewConnection os fc fd s (fds.map .ok)).2.m_reactor.sys
          = some (EPOLLIN ||| EPOLLET)) ∧
      (∀ f, f ∉ fds →
        mapFind (TCPServer.handleNewConnection os fc fd s (fds.map .ok)).2.m_clients f
          = mapFind s.m_clients f ∧
        mapFind (TCPServer.handleNewConnection os fc fd s (fds.map .ok)).2.m_reactor.m_handlers f
          = mapFind s.m_reactor.m_handlers f ∧
        interest f (TCPServer.handleNewConnection os fc fd s (fds.map .ok)).2.m_reactor.sys
          = interest f s.m_reactor.sys) := by
  induction fds with
  | nil =>
    intro s _ _ _ _
    simp [TCPServer.handleNewConnection]
  | cons f tl ih =>
    intro s hnd hnew hnb hadd
    have hf : f ∉ tl := (List.nodup_cons.mp hnd).1
    have hfnew := hnew f (List.mem_cons_self _ _)
    rw [List.map_cons, handleNewConnection_ok_step s os fc fd f _ hfnew
      (hnb f (List.mem_cons_self _ _)) (hadd f (List.mem_cons_self _ _))]
    have hrec := ih
      { s.storeClient f with
        m_reactor :=
          { s.m_reactor with
            sys := s.m_reactor.sys ++
              [⟨.add, f, EPOLLIN ||| EPOLLET, os .add f (EPOLLIN ||| EPOLLET)⟩]
            m_handlers := mapAssign s.m_reactor.m_handlers f .client } }
      (List.nodup_cons.mp hnd).2
      (by
        intro g hg
        have hgf : g ≠ f := fun e => hf (e ▸ hg)
        simp only
        rw [mapFind_mapAssign, if_neg hgf]
        exact hnew g (List.mem_cons_of_mem _ hg))
      (fun g hg => hnb g (List.mem_cons_of_mem _ hg))
      (fun g hg => hadd g (List.mem_cons_of_mem _ hg))
    obtain ⟨h1, h2, h3⟩ := hrec
    refine ⟨h1, ?_, ?_⟩
    · intro g hg
      rcases List.mem_cons.mp hg with hgf | hgt
      · subst hgf
        obtain ⟨a1, a2, a3⟩ := h3 g hf
        refine ⟨?_, ?_, ?_⟩
        · rw [a1]
          simp only
          rw [storeClient_clients, if_pos rfl]
        · rw [a2]
          simp only
          rw [mapFind_mapAssign, if_pos rfl]
        · rw [a3]
          simp only
          rw [interest_snoc]
          simp
      · exact h2 g hgt
    · intro g hg
      have hgf : g ≠ f := fun e => hg (e ▸ List.mem_cons_self _ _)
      have hgt : g ∉ tl := fun e => hg (List.mem_cons_of_mem _ e)
      have hfg : ¬ f = g := fun e => hgf e.symm
      obtain ⟨a1, a2, a3⟩ := h3 g hgt
      refine ⟨?_, ?_, ?_⟩
      · rw [a1]
        simp only
        rw [storeClient_clients, if_neg hgf]
      · rw [a2]
        simp only
        rw [mapFind_mapAssign, if_neg hgf]
      · rw [a3]
        simp only
        rw [interest_snoc]
        simp [hfg]

/-- C11, as the code has it: for every n ≥ 0 and every run of accept that yields n
distinct descriptors without a stored callback, each made non-blocking without error and
each accepted by the readiness context (`epoll_ctl` add does not answer `-1`), followed by
would-block, one invocation of `handleNewConnection` returns without throwing and has
accepted all n: each of them has a connection-table entry that owns its socket and has an
empty queue, the client callback stored, and `EPOLLIN | EPOLLET` as the interest last
requested; the connection state, the callback and the interest of every other
descriptor are as before. An accept error, genuine or would-block, ends the loop with
the same outcome as the end of the script: nothing is thrown and the connections
accepted before it are kept. -/
theorem C11_accept_loop_registers_all (s : TCPServer) (os : EpollCtl) (fc : Fcntl)
    (fd : Int) (fds : List Int) (hnd : fds.Nodup)
    (hnew : ∀ f ∈ fds, mapFind s.m_reactor.m_handlers f = none)
    (hnb : ∀ f ∈ fds, Socket.setNonBlocking ⟨f⟩ fc = .ok ())
    (hadd : ∀ f ∈ fds, (os .add f (EPOLLIN ||| EPOLLET)).ret ≠ -1) :
    (TCPServer.handleNewConnection os fc fd s (fds.map .ok)).1 = .ok () ∧
    (∀ f ∈ fds,
      mapFind (TCPServer.handleNewConnection os fc fd s (fds.map .ok)).2.m_clients f
        = some { socket := some ⟨f⟩, write_buffer := [] } ∧
      mapFind (TCPServer.handleNewConnection os fc fd s (fds.map .ok)).2.m_reactor.m_handlers f
        = some .client ∧
      interest f (TCPServer.handleNewConnection os fc fd s (fds.map .ok)).2.m_reactor.sys
        = some (EPOLLIN ||| EPOLLET)) ∧
    (∀ f, f ∉ fds →
      mapFind (TCPServer.handleNewConnection os fc fd s (fds.map .ok)).2.m_clients f
        = mapFind s.m_clients f ∧
      mapFind (TCPServer.handleNewConnection os fc fd s (fds.map .ok)).2.m_reactor.m_handlers f
        = mapFind s.m_reactor.m_handlers f ∧
      interest f (TCPServer.handleNewConnection os fc fd s (fds.map .ok)).2.m_reactor.sys
        = interest f s.m_reactor.sys) ∧
    (∀ (e : Nat) (rest : List AcceptRes),
      TCPServer.handleNewConnection os fc fd s (fds.map .ok ++ .fail e :: rest)
        = TCPServer.handleNewConnection os fc fd s (fds.map .ok)) := by
  obtain ⟨h1, h2, h3⟩ := handleNewConnection_all os fc fd fds s hnd hnew hnb hadd
  exact ⟨h1, h2, h3, fun e rest => handleNewConnection_fail_cut os fc fd e rest _ s⟩

/-- C11 at a concrete input: three connections 7, 8 and 9 are pending on the listening
descriptor 3; one invocation accepts the three, and the listening entry is kept. -/
theorem C11_accept_loop_registers_all_witness :
    (TCPServer.handleNewConnection ctlOk fcntlOk 3 listening3 [.ok 7, .ok 8, .ok 9]).1
      = .ok () ∧
    (TCPServer.handleNewConnection ctlOk fcntlOk 3 listening3
        [.ok 7, .ok 8, .ok 9]).2.m_clients
      = [(7, { socket := some ⟨7⟩, write_buffer := [] }),
         (8, { socket := some ⟨8⟩, write_buffer := [] }),
         (9, { socket := some ⟨9⟩, write_buffer := [] })] ∧
    (TCPServer.handleNewConnection ctlOk fcntlOk 3 listening3
        [.ok 7, .ok 8, .ok 9]).2.m_reactor.m_handlers
      = [(3, .listen), (7, .client), (8, .client), (9, .client)] :=
  ⟨(C11_accept_loop_registers_all listening3 ctlOk fcntlOk 3 [7, 8, 9] (by decide)
      (by decide) (fun _ _ => rfl) (by decide)).1,
    by decide, by decide⟩

/-- C11 as stated fails: descriptor 7 is new and made non-blocking without error, but
the readiness context refuses it (`epoll_ctl` add answers `-1`); `handleNewConnection`
returns with a connection-table entry for 7 and no callback stored for it. -/
theorem C11_counterexample_registration_refused :
    mapFind listening3.m_reactor.m_handlers 7 = none ∧
    Socket.setNonBlocking ⟨7⟩ fcntlOk = .ok () ∧
    (ctlFail .add 7 (EPOLLIN ||| EPOLLET)).ret = -1 ∧
    (TCPServer.handleNewConnection ctlFail fcntlOk 3 listening3 [.ok 7]).1 = .ok () ∧
    mapFind (TCPServer.handleNewConnection ctlFail fcntlOk 3 listening3 [.ok 7]).2.m_clients 7
      = some { socket := some ⟨7⟩, write_buffer := [] } ∧
    mapFind (TCPServer.handleNewConnection ctlFail fcntlOk 3 listening3
      [.ok 7]).2.m_reactor.m_handlers 7 = none := by
  refine ⟨by decide, rfl, by decide, rfl, by decide, by decide⟩

/-! ## C12: the output queue is bounded -/

theorem prefix_append_cases {α : Type} (p l m : List α) (h : p <+: l ++ m) :
    p <+: l ∨ ∃ m1, p = l ++ m1 ∧ m1 <+: m := by
  rcases List.prefix_or_prefix_of_prefix h (List.prefix_append l m) with h1 | h1
  · exact Or.inl h1
  · obtain ⟨m1, hm1⟩ := h1
    refine Or.inr ⟨m1, hm1.symm, ?_⟩
    rw [← hm1] at h
    exact (List.prefix_append_right_inj l).mp h

theorem peakBound_extend (s : TCPServer) (t : Int) (m : List IoCall) (hp : PeakBound s t)
    (hm : ∀ m1, m1 <+: m →
      (bytesRead t (s.io ++ m1)).length ≤ (bytesSent t (s.io ++ m1)).length + (65535 + 4096)) :
    PeakBound ({ s with io := s.io ++ m } : TCPServer) t := by
  intro p hpre
  rcases prefix_append_cases p s.io m hpre with h1 | ⟨m1, h1, h2⟩
  · exact hp p h1
  · rw [h1]
    exact hm m1 h2

theorem peakBound_snoc (s : TCPServer) (t : Int) (e : IoCall) (hp : PeakBound s t)
    (he : (bytesRead t (s.io ++ [e])).length
      ≤ (bytesSent t (s.io ++ [e])).length + (65535 + 4096)) :
    PeakBound ({ s with io := s.io ++ [e] } : TCPServer) t := by
  apply peakBound_extend s t [e] hp
  intro m1 hm1
  rcases List.prefix_cons_iff.mp hm1 with h | ⟨m2, h, h2⟩
  · rw [h, List.append_nil]
    exact hp s.io (List.prefix_refl _)
  · have hm2 : m2 = [] := List.prefix_nil.mp h2
    rw [h, hm2]
    exact he

theorem peakBound_io_eq (s s1 : TCPServer) (t : Int) (h : s1.io = s.io) (hp : PeakBound s t) :
    PeakBound s1 t := by
  intro p hpre
  rw [h] at hpre
  exact hp p hpre

theorem peakBound_closes (s : TCPServer) (t : Int) (cl : List Int) (hp : PeakBound s t) :
    PeakBound ({ s with io := s.io ++ cl.map IoCall.close } : TCPServer) t := by
  apply peakBound_extend s t _ hp
  intro m1 hm1
  have hk : m1 = (cl.take m1.length).map IoCall.close := by
    rw [List.map_take]
    exact List.prefix_iff_eq_take.mp hm1
  rw [hk, bytesRead_append, bytesSent_append, bytesRead_closes, bytesSent_closes]
  simpa using hp s.io (List.prefix_refl _)

theorem cleanupClient_peak (s : TCPServer) (os : EpollCtl) (h t : Int) (hp : PeakBound s t) :
    PeakBound (s.cleanupClient os h) t := by
  have hio : (s.cleanupClient os h).io
      = s.io ++ (match mapFind s.m_clients h with
          | some cs => cs.dtor
          | none => []).map IoCall.close := rfl
  exact peakBound_io_eq _ _ t hio (peakBound_closes s t _ hp)

theorem writeStep_peak (s : TCPServer) (os : EpollCtl) (h t : Int) (buffer : List Nat)
    (w : WriteRes) (hp : PeakBound s t) : PeakBound (s.writeStep os h buffer w).1 t := by
  have hlog : PeakBound ({ s with io := s.io ++ [.write h buffer w] } : TCPServer) t := by
    apply peakBound_snoc s t _ hp
    have h0 := hp s.io (List.prefix_refl _)
    rw [bytesRead_append, bytesSent_append]
    cases w with
    | fail e => simpa [bytesRead, bytesSent] using h0
    | ok n =>
      by_cases hht : h = t
      · simp only [bytesRead, bytesSent, hht, if_true, List.append_nil, List.length_append]
        omega
      · simpa [bytesRead, bytesSent, hht] using h0
  cases w with
  | fail e =>
    unfold TCPServer.writeStep
    simp only
    split_ifs
    · exact peakBound_io_eq _ _ t rfl hlog
    · exact peakBound_io_eq _ _ t rfl hlog
    · exact cleanupClient_peak _ os h t hlog
    · exact cleanupClient_peak _ os h t hlog
  | ok n =>
    unfold TCPServer.writeStep
    simp only
    split_ifs
    · exact peakBound_io_eq _ _ t rfl hlog
    · exact peakBound_io_eq _ _ t rfl hlog

theorem writeLoop_peak (os : EpollCtl) (h t : Int) (ws : List WriteRes) :
    ∀ (s : TCPServer) (buffer : List Nat), PeakBound s t →
      PeakBound (TCPServer.writeLoop os h s buffer ws) t := by
  induction ws with
  | nil =>
    intro s buffer hp
    unfold TCPServer.writeLoop
    exact writeStep_peak s os h t buffer _ hp
  | cons w ws ih =>
    intro s buffer hp
    have hstep := writeStep_peak s os h t buffer w hp
    unfold TCPServer.writeLoop
    rcases hres : s.writeStep os h buffer w with ⟨s1, o⟩
    rw [hres] at hstep
    cases o with
    | none => exact hstep
    | some rest => exact ih s1 rest hstep

theorem handleClientWrite_peak (s : TCPServer) (os : EpollCtl) (h t : Int)
    (ws : List WriteRes) (hp : PeakBound s t) : PeakBound (s.handleClientWrite os h ws) t := by
  unfold TCPServer.handleClientWrite
  split
  · exact peakBound_io_eq _ _ t rfl hp
  · split_ifs
    · exact peakBound_io_eq _ _ t rfl hp
    · exact writeLoop_peak os h t ws s _ hp

theorem streamLaw_length (s : TCPServer) (t : Int) (q : List Nat) (hl : StreamLaw s t)
    (hq : s.queue t = some q) :
    (bytesSent t s.io).length + q.length = (bytesRead t s.io).length := by
  have := congrArg List.length (hl q hq)
  simpa using this

/-- One round of the read loop that appends a chunk keeps the stream law. -/
theorem readStep_law (s : TCPServer) (h t : Int) (buffer bs : List Nat)
    (hl : StreamLaw s t) (hq : s.queue h = some buffer) :
    StreamLaw (({ s with io := s.io ++ [.read h (.ok bs)] } : TCPServer).setBuffer h
      (buffer ++ bs.map transformByte)) t := by
  have hq3 : ({ s with io := s.io ++ [.read h (.ok bs)] } : TCPServer).queue h
      = some buffer := hq
  intro q hq1
  rw [setBuffer_queue] at hq1
  simp only [setBuffer_io, bytesSent_append, bytesRead_append, bytesSent, bytesRead,
    List.append_nil]
  by_cases ht : t = h
  · subst ht
    simp only [if_true, hq3, Option.map_some'] at hq1
    have hq4 : q = buffer ++ bs.map transformByte := (Option.some.inj hq1).symm
    have := hl buffer hq
    rw [hq4]
    simp only [if_true, List.map_append, ← List.append_assoc, this]
  · simp only [ht, if_false] at hq1
    have hne : ¬ h = t := fun e => ht e.symm
    have := hl q hq1
    simpa [hne] using this

theorem readComplete_peak (s : TCPServer) (os : EpollCtl) (h t : Int) (buffer : List Nat)
    (ws : List WriteRes) (hp : PeakBound s t) :
    PeakBound (s.readComplete os h buffer ws) t := by
  unfold TCPServer.readComplete
  split_ifs
  · exact hp
  · exact handleClientWrite_peak s os h t ws hp

theorem logRead_fail_peak (s : TCPServer) (h t : Int) (e : Nat) (hp : PeakBound s t) :
    PeakBound ({ s with io := s.io ++ [.read h (.fail e)] } : TCPServer) t := by
  apply peakBound_snoc s t _ hp
  have h0 := hp s.io (List.prefix_refl _)
  rw [bytesRead_append, bytesSent_append]
  simpa [bytesRead, bytesSent] using h0

/-- A chunk that fits the scratch buffer, read while the queue is below the high
watermark, keeps the backlog within the bound. -/
theorem logRead_ok_peak (s : TCPServer) (h t : Int) (buffer bs : List Nat)
    (hl : StreamLaw s t) (hp : PeakBound s t) (hq : s.queue h = some buffer)
    (hlt : buffer.length < MAX_WRITE_BUFFER_SIZE) (hbs : bs.length ≤ TEMP_BUF_SIZE) :
    PeakBound ({ s with io := s.io ++ [.read h (.ok bs)] } : TCPServer) t := by
  apply peakBound_snoc s t _ hp
  have h0 := hp s.io (List.prefix_refl _)
  rw [bytesRead_append, bytesSent_append]
  by_cases hht : h = t
  · subst hht
    have hlen := streamLaw_length s h buffer hl hq
    unfold MAX_WRITE_BUFFER_SIZE at hlt
    unfold TEMP_BUF_SIZE at hbs
    simp only [bytesRead, bytesSent, if_true, List.append_nil, List.length_append]
    omega
  · simpa [bytesRead, bytesSent, hht] using h0

theorem readLoop_peak (os : EpollCtl) (h t : Int) (ws : List WriteRes) (rs : List ReadRes) :
    ∀ (s : TCPServer) (buffer : List Nat), StreamLaw s t → PeakBound s t →
      s.queue h = some buffer → buffer.length < MAX_WRITE_BUFFER_SIZE →
      (∀ r ∈ rs, r.bounded) →
      PeakBound (TCPServer.readLoop os h ws s buffer rs) t := by
  induction rs with
  | nil =>
    intro s buffer _ hp _ _ _
    unfold TCPServer.readLoop
    exact readComplete_peak _ os h t buffer ws (logRead_fail_peak s h t EAGAIN hp)
  | cons r rs ih =>
    intro s buffer hl hp hq hlt hwf
    unfold TCPServer.readLoop
    cases r with
    | fail e =>
      simp only
      split_ifs
      · exact readComplete_peak _ os h t buffer ws (logRead_fail_peak s h t e hp)
      · exact cleanupClient_peak _ os h t (logRead_fail_peak s h t e hp)
    | ok bs =>
      have hbs : bs.length ≤ TEMP_BUF_SIZE := hwf (.ok bs) (List.mem_cons_self _ _)
      have hlog := logRead_ok_peak s h t buffer bs hl hp hq hlt hbs
      have hq3 : ({ s with io := s.io ++ [.read h (.ok bs)] } : TCPServer).queue h
          = some buffer := hq
      have hqs : (({ s with io := s.io ++ [.read h (.ok bs)] } : TCPServer).setBuffer h
            (buffer ++ bs.map transformByte)).queue h = some (buffer ++ bs.map transformByte) := by
        rw [setBuffer_queue]
        simp [hq3]
      simp only
      split_ifs with h1 h2
      · exact cleanupClient_peak _ os h t hlog
      · exact handleClientWrite_peak _ os h t ws (peakBound_io_eq _ _ t rfl hlog)
      · exact ih _ _ (readStep_law s h t buffer bs hl hq) (peakBound_io_eq _ _ t rfl hlog) hqs
          (by omega) (fun r hr => hwf r (List.mem_cons_of_mem _ hr))

theorem handleClientData_peak (s : TCPServer) (os : EpollCtl) (h t : Int)
    (rs : List ReadRes) (ws : List WriteRes) (hl : StreamLaw s t) (hp : PeakBound s t)
    (hwf : ∀ r ∈ rs, r.bounded) : PeakBound (s.handleClientData os h rs ws) t := by
  unfold TCPServer.handleClientData
  split
  · exact hp
  · rename_i cs hcs
    split_ifs with h1
    · exact peakBound_io_eq _ _ t rfl hp
    · exact readLoop_peak os h t ws rs s cs.write_buffer hl hp (queue_of_find s h cs hcs)
        (by omega) hwf

theorem clientCallback_peak (s : TCPServer) (os : EpollCtl) (h : Int) (ev : Nat) (t : Int)
    (ws1 : List WriteRes) (rs : List ReadRes) (ws2 : List WriteRes) (hl : StreamLaw s t)
    (hp : PeakBound s t) (hwf : ∀ r ∈ rs, r.bounded) :
    PeakBound (s.clientCallback os h ev ws1 rs ws2) t := by
  unfold TCPServer.clientCallback
  split
  · exact hp
  · split_ifs
    all_goals first
      | exact cleanupClient_peak s os h t hp
      | exact handleClientData_peak _ os h t rs ws2 (handleClientWrite_law s os h t ws1 hl)
          (handleClientWrite_peak s os h t ws1 hp) hwf
      | exact handleClientData_peak _ os h t rs ws2 hl hp hwf
      | exact handleClientWrite_peak s os h t ws1 hp
      | exact hp

theorem invoke_peak (s : TCPServer) (t : Int) (inv : Invocation) (hl : StreamLaw s t)
    (hp : PeakBound s t) (hwf : inv.readsBounded) : PeakBound (s.invoke inv) t := by
  cases inv with
  | data fd os rs ws => exact handleClientData_peak s os fd t rs ws hl hp hwf
  | write fd os ws => exact handleClientWrite_peak s os fd t ws hp
  | event fd ev os ws1 rs ws2 => exact clientCallback_peak s os fd ev t ws1 rs ws2 hl hp hwf

theorem invokeAll_peak (t : Int) (invs : List Invocation) :
    ∀ s : TCPServer, StreamLaw s t → PeakBound s t → (∀ inv ∈ invs, inv.readsBounded) →
      StreamLaw (s.invokeAll invs) t ∧ PeakBound (s.invokeAll invs) t := by
  induction invs with
  | nil => intro s hl hp _; exact ⟨hl, hp⟩
  | cons inv invs ih =>
    intro s hl hp hwf
    exact ih (s.invoke inv) (invoke_law s t inv hl)
      (invoke_peak s t inv hl hp (hwf inv (List.mem_cons_self _ _)))
      (fun i hi => hwf i (List.mem_cons_of_mem _ hi))

/-! ## C12: the number of system calls of one invocation -/

theorem readCalls_append (fd : Int) (l1 l2 : List IoCall) :
    readCalls fd (l1 ++ l2) = readCalls fd l1 + readCalls fd l2 := by
  induction l1 with
  | nil => simp [readCalls]
  | cons c l ih =>
    cases c with
    | read fd1 res => simp [readCalls, ih, Nat.add_assoc]
    | write fd1 buf res => simp [readCalls, ih]
    | close fd1 => simp [readCalls, ih]

theorem writeCalls_append (fd : Int) (l1 l2 : List IoCall) :
    writeCalls fd (l1 ++ l2) = writeCalls fd l1 + writeCalls fd l2 := by
  induction l1 with
  | nil => simp [writeCalls]
  | cons c l ih =>
    cases c with
    | read fd1 res => simp [writeCalls, ih]
    | write fd1 buf res => simp [writeCalls, ih, Nat.add_assoc]
    | close fd1 => simp [writeCalls, ih]

theorem readCalls_closes (fd : Int) (l : List Int) :
    readCalls fd (l.map IoCall.close) = 0 := by
  induction l with
  | nil => simp [readCalls]
  | cons c l ih => simp [readCalls, ih]

theorem writeCalls_closes (fd : Int) (l : List Int) :
    writeCalls fd (l.map IoCall.close) = 0 := by
  induction l with
  | nil => simp [writeCalls]
  | cons c l ih => simp [writeCalls, ih]

theorem cleanupClient_calls (s : TCPServer) (os : EpollCtl) (h t : Int) :
    readCalls t (s.cleanupClient os h).io = readCalls t s.io ∧
      writeCalls t (s.cleanupClient os h).io = writeCalls t s.io := by
  unfold TCPServer.cleanupClient
  simp [readCalls_append, writeCalls_append, readCalls_closes, writeCalls_closes]

theorem writeStep_calls (s : TCPServer) (os : EpollCtl) (h t : Int) (buffer : List Nat)
    (w : WriteRes) :
    readCalls t (s.writeStep os h buffer w).1.io = readCalls t s.io ∧
      writeCalls t (s.writeStep os h buffer w).1.io ≤ writeCalls t s.io + 1 := by
  have hlog : readCalls t (s.io ++ [IoCall.write h buffer w]) = readCalls t s.io ∧
      writeCalls t (s.io ++ [IoCall.write h buffer w]) ≤ writeCalls t s.io + 1 := by
    rw [readCalls_append, writeCalls_append]
    constructor
    · simp [readCalls]
    · simp only [writeCalls]
      split_ifs <;> omega
  cases w with
  | fail e =>
    unfold TCPServer.writeStep
    simp only
    split_ifs
    · exact hlog
    · exact hlog
    · rw [(cleanupClient_calls _ os h t).1, (cleanupClient_calls _ os h t).2]
      exact hlog
    · rw [(cleanupClient_calls _ os h t).1, (cleanupClient_calls _ os h t).2]
      exact hlog
  | ok n =>
    unfold TCPServer.writeStep
    simp only
    split_ifs
    · exact hlog
    · exact hlog

theorem writeStep_fail_next (s : TCPServer) (os : EpollCtl) (h : Int) (buffer : List Nat)
    (e : Nat) : (s.writeStep os h buffer (.fail e)).2 = none := by
  unfold TCPServer.writeStep
  simp only
  split_ifs <;> rfl

theorem writeLoop_readCalls (os : EpollCtl) (h t : Int) (ws : List WriteRes) :
    ∀ (s : TCPServer) (buffer : List Nat),
      readCalls t (TCPServer.writeLoop os h s buffer ws).io = readCalls t s.io := by
  induction ws with
  | nil =>
    intro s buffer
    unfold TCPServer.writeLoop
    exact (writeStep_calls s os h t buffer _).1
  | cons w ws ih =>
    intro s buffer
    have hstep := (writeStep_calls s os h t buffer w).1
    unfold TCPServer.writeLoop
    rcases hres : s.writeStep os h buffer w with ⟨s1, o⟩
    rw [hres] at hstep
    cases o with
    | none => exact hstep
    | some rest =>
      simp only at hstep ⊢
      rw [ih s1 rest, hstep]

theorem handleClientWrite_readCalls (s : TCPServer) (os : EpollCtl) (h t : Int)
    (ws : List WriteRes) :
    readCalls t (s.handleClientWrite os h ws).io = readCalls t s.io := by
  unfold TCPServer.handleClientWrite
  split
  · rfl
  · split_ifs
    · rfl
    · exact writeLoop_readCalls os h t ws s _

/-- The flush loop makes at most one write call per queued byte and one more, when
every write that the OS accepts takes at least one byte. -/
theorem writeLoop_writeCalls (os : EpollCtl) (h t : Int) (ws : List WriteRes) :
    ∀ (s : TCPServer) (buffer : List Nat), (∀ w ∈ ws, w ≠ WriteRes.ok 0) →
      writeCalls t (TCPServer.writeLoop os h s buffer ws).io
        ≤ writeCalls t s.io + buffer.length + 1 := by
  induction ws with
  | nil =>
    intro s buffer _
    unfold TCPServer.writeLoop
    have := (writeStep_calls s os h t buffer (.fail EAGAIN)).2
    omega
  | cons w ws ih =>
    intro s buffer hprog
    have hstep := (writeStep_calls s os h t buffer w).2
    have hw : w ≠ WriteRes.ok 0 := hprog w (List.mem_cons_self _ _)
    have hnext : ∀ rest, (s.writeStep os h buffer w).2 = some rest →
        rest.length + 1 ≤ buffer.length := by
      intro rest hrest
      cases w with
      | fail e =>
        rw [writeStep_fail_next] at hrest
        exact absurd hrest (by simp)
      | ok n =>
        rw [writeStep_ok_next] at hrest
        have hn : n ≠ 0 := fun e => hw (by rw [e])
        by_cases hemp : (buffer.drop n).isEmpty = true
        · rw [if_pos hemp] at hrest
          exact absurd hrest (by simp)
        · rw [if_neg hemp] at hrest
          have hr : rest = buffer.drop n := (Option.some.inj hrest).symm
          have hlt : n < buffer.length := by
            by_contra hge
            exact hemp ((drop_isEmpty_iff buffer n).mpr hge)
          rw [hr, List.length_drop]
          omega
    unfold TCPServer.writeLoop
    rcases hres : s.writeStep os h buffer w with ⟨s1, o⟩
    rw [hres] at hstep hnext
    cases o with
    | none =>
      simp only at hstep ⊢
      omega
    | some rest =>
      simp only at hstep hnext ⊢
      have h1 := ih s1 rest (fun x hx => hprog x (List.mem_cons_of_mem _ hx))
      have h2 := hnext rest rfl
      omega

theorem handleClientWrite_writeCalls (s : TCPServer) (os : EpollCtl) (h t : Int)
    (ws : List WriteRes) (q : List Nat) (hq : s.queue h = some q)
    (hprog : ∀ w ∈ ws, w ≠ WriteRes.ok 0) :
    writeCalls t (s.handleClientWrite os h ws).io ≤ writeCalls t s.io + q.length + 1 := by
  unfold TCPServer.handleClientWrite
  split
  · show writeCalls t s.io ≤ _
    omega
  · rename_i cs hcs
    have hq1 := queue_of_find s h cs hcs
    rw [hq] at hq1
    have hq2 : q = cs.write_buffer := Option.some.inj hq1
    split_ifs
    · show writeCalls t s.io ≤ _
      omega
    · rw [hq2]
      exact writeLoop_writeCalls os h t ws s _ hprog

/-- The read loop makes at most one read call per byte that the queue is below the
high watermark and one more, however long the script of read answers is; its write
calls, all made by the flush that ends it, are bounded when the read answers fit the
scratch buffer and every accepted write takes at least one byte. -/
theorem readLoop_calls (os : EpollCtl) (h t : Int) (ws : List WriteRes) (rs : List ReadRes) :
    ∀ (s : TCPServer) (buffer : List Nat), s.queue h = some buffer →
      buffer.length < MAX_WRITE_BUFFER_SIZE →
      readCalls t (TCPServer.readLoop os h ws s buffer rs).io + buffer.length
          ≤ readCalls t s.io + MAX_WRITE_BUFFER_SIZE + 1 ∧
      ((∀ r ∈ rs, r.bounded) → (∀ w ∈ ws, w ≠ WriteRes.ok 0) →
        writeCalls t (TCPServer.readLoop os h ws s buffer rs).io
          ≤ writeCalls t s.io + (65535 + 4096) + 1) := by
  have hlogr : ∀ (s : TCPServer) (r : ReadRes),
      readCalls t (s.io ++ [IoCall.read h r]) ≤ readCalls t s.io + 1 ∧
      writeCalls t (s.io ++ [IoCall.read h r]) = writeCalls t s.io := by
    intro s r
    rw [readCalls_append, writeCalls_append]
    constructor
    · simp only [readCalls]
      split_ifs <;> omega
    · simp [writeCalls]
  have hcomplete : ∀ (s : TCPServer) (buffer : List Nat) (r : ReadRes),
      s.queue h = some buffer → buffer.length < MAX_WRITE_BUFFER_SIZE →
      readCalls t (TCPServer.readComplete { s with io := s.io ++ [.read h r] }
          os h buffer ws).io + buffer.length
          ≤ readCalls t s.io + MAX_WRITE_BUFFER_SIZE + 1 ∧
      ((∀ w ∈ ws, w ≠ WriteRes.ok 0) →
        writeCalls t (TCPServer.readComplete { s with io := s.io ++ [.read h r] }
            os h buffer ws).io ≤ writeCalls t s.io + (65535 + 4096) + 1) := by
    intro s buffer r hq hlt
    have hq3 : ({ s with io := s.io ++ [.read h r] } : TCPServer).queue h = some buffer := hq
    unfold MAX_WRITE_BUFFER_SIZE at hlt ⊢
    unfold TCPServer.readComplete
    split_ifs
    · refine ⟨?_, fun _ => ?_⟩
      · have := (hlogr s r).1
        show readCalls t (s.io ++ [IoCall.read h r]) + buffer.length ≤ _
        omega
      · have := (hlogr s r).2
        show writeCalls t (s.io ++ [IoCall.read h r]) ≤ _
        omega
    · refine ⟨?_, fun hprog => ?_⟩
      · rw [handleClientWrite_readCalls]
        have := (hlogr s r).1
        show readCalls t (s.io ++ [IoCall.read h r]) + buffer.length ≤ _
        omega
      · have h1 := handleClientWrite_writeCalls _ os h t ws buffer hq3 hprog
        have h2 := (hlogr s r).2
        have h3 : writeCalls t ({ s with io := s.io ++ [.read h r] } : TCPServer).io
            = writeCalls t s.io := h2
        omega
  induction rs with
  | nil =>
    intro s buffer hq hlt
    unfold TCPServer.readLoop
    have := hcomplete s buffer (.fail EAGAIN) hq hlt
    exact ⟨this.1, fun _ hprog => this.2 hprog⟩
  | cons r rs ih =>
    intro s buffer hq hlt
    unfold TCPServer.readLoop
    cases r with
    | fail e =>
      simp only
      split_ifs
      · have := hcomplete s buffer (.fail e) hq hlt
        exact ⟨this.1, fun _ hprog => this.2 hprog⟩
      · rw [(cleanupClient_calls _ os h t).1, (cleanupClient_calls _ os h t).2]
        unfold MAX_WRITE_BUFFER_SIZE at hlt ⊢
        refine ⟨?_, fun _ _ => ?_⟩
        · have := (hlogr s (.fail e)).1
          show readCalls t (s.io ++ [IoCall.read h (.fail e)]) + buffer.length ≤ _
          omega
        · have := (hlogr s (.fail e)).2
          show writeCalls t (s.io ++ [IoCall.read h (.fail e)]) ≤ _
          omega
    | ok bs =>
      have hq3 : ({ s with io := s.io ++ [.read h (.ok bs)] } : TCPServer).queue h
          = some buffer := hq
      have hqs : (({ s with io := s.io ++ [.read h (.ok bs)] } : TCPServer).setBuffer h
            (buffer ++ bs.map transformByte)).queue h = some (buffer ++ bs.map transformByte) := by
        rw [setBuffer_queue]
        simp [hq3]
      have hr1 := (hlogr s (.ok bs)).1
      have hr2 := (hlogr s (.ok bs)).2
      simp only
      split_ifs with h1 h2
      · rw [(cleanupClient_calls _ os h t).1, (cleanupClient_calls _ os h t).2]
        unfold MAX_WRITE_BUFFER_SIZE at hlt ⊢
        refine ⟨?_, fun _ _ => ?_⟩
        · show readCalls t (s.io ++ [IoCall.read h (.ok bs)]) + buffer.length ≤ _
          omega
        · show writeCalls t (s.io ++ [IoCall.read h (.ok bs)]) ≤ _
          omega
      · refine ⟨?_, fun hwf hprog => ?_⟩
        · rw [handleClientWrite_readCalls]
          unfold MAX_WRITE_BUFFER_SIZE at hlt ⊢
          show readCalls t (s.io ++ [IoCall.read h (.ok bs)]) + buffer.length ≤ _
          omega
        · have hbs : bs.length ≤ TEMP_BUF_SIZE := hwf (.ok bs) (List.mem_cons_self _ _)
          have hw := handleClientWrite_writeCalls
            ((({ s with io := s.io ++ [.read h (.ok bs)] } : TCPServer).setBuffer h
              (buffer ++ bs.map transformByte)).modify os h (EPOLLOUT ||| EPOLLET))
            os h t ws (buffer ++ bs.map transformByte) hqs hprog
          have hio : writeCalls t
              ((({ s with io := s.io ++ [.read h (.ok bs)] } : TCPServer).setBuffer h
                (buffer ++ bs.map transformByte)).modify os h (EPOLLOUT ||| EPOLLET)).io
              = writeCalls t s.io := hr2
          have hlen : (buffer ++ bs.map transformByte).length = buffer.length + bs.length := by
            simp
          unfold MAX_WRITE_BUFFER_SIZE at hlt
          unfold TEMP_BUF_SIZE at hbs
          omega
      · have hlen : (buffer ++ bs.map transformByte).length = buffer.length + bs.length := by
          simp
        have hpos : 0 < bs.length := Nat.pos_of_ne_zero h1
        have hrec := ih _ _ hqs (by omega)
        have hior : readCalls t
            (({ s with io := s.io ++ [.read h (.ok bs)] } : TCPServer).setBuffer h
              (buffer ++ bs.map transformByte)).io ≤ readCalls t s.io + 1 := hr1
        have hiow : writeCalls t
            (({ s with io := s.io ++ [.read h (.ok bs)] } : TCPServer).setBuffer h
              (buffer ++ bs.map transformByte)).io = writeCalls t s.io := hr2
        refine ⟨?_, fun hwf hprog => ?_⟩
        · have := hrec.1
          omega
        · have := hrec.2 (fun r hr => hwf r (List.mem_cons_of_mem _ hr)) hprog
          omega

theorem handleClientData_calls (s : TCPServer) (os : EpollCtl) (h t : Int)
    (rs : List ReadRes) (ws : List WriteRes) :
    readCalls t (s.handleClientData os h rs ws).io ≤ readCalls t s.io + 65537 ∧
    ((∀ r ∈ rs, r.bounded) → (∀ w ∈ ws, w ≠ WriteRes.ok 0) →
      writeCalls t (s.handleClientData os h rs ws).io ≤ writeCalls t s.io + 69632) := by
  unfold TCPServer.handleClientData
  split
  · exact ⟨by omega, fun _ _ => by omega⟩
  · rename_i cs hcs
    split_ifs with h1
    · refine ⟨?_, fun _ _ => ?_⟩
      · show readCalls t s.io ≤ _
        omega
      · show writeCalls t s.io ≤ _
        omega
    · have hc := readLoop_calls os h t ws rs s cs.write_buffer (queue_of_find s h cs hcs)
        (by omega)
      unfold MAX_WRITE_BUFFER_SIZE at hc
      refine ⟨by have := hc.1; omega, fun hwf hprog => ?_⟩
      have := hc.2 hwf hprog
      omega

theorem fresh_streamLaw (s : TCPServer) (fd : Int) (hq0 : s.queue fd = some [])
    (hr0 : bytesRead fd s.io = []) (hs0 : bytesSent fd s.io = []) : StreamLaw s fd := by
  intro q hq
  rw [hq0] at hq
  have hq1 : q = [] := (Option.some.inj hq).symm
  rw [hq1, hr0, hs0]
  rfl

theorem fresh_peakBound (s : TCPServer) (fd : Int) (hr0 : bytesRead fd s.io = []) :
    PeakBound s fd := by
  intro p hp
  obtain ⟨r, hr⟩ := hp
  have h1 : bytesRead fd p ++ bytesRead fd r = [] := by
    rw [← bytesRead_append, hr, hr0]
  have h2 : bytesRead fd p = [] := (List.append_eq_nil.mp h1).1
  rw [h2]
  simp

/-- C12: starting from an accepted connection `fd` with an empty queue and no byte
read or sent yet, for every sequence of read-handler, write-handler and callback
invocations whose read answers hold at most 4096 bytes each, and all write answers: the
output queue, while the connection is open, holds at most 65535 + 4096 = 69631 bytes and
holds exactly the bytes read and not yet sent; at every point of the history (every
prefix of the system calls made) the bytes read exceed the bytes sent by at most 69631,
so the bound holds between the calls of a handler too. One invocation of the read
handler, from any state and on any script of read answers however long, makes at most
65537 read calls (the loop ends by would-block, disconnect, error or the 65536-byte
threshold), and at most 69632 write calls when every write the OS accepts takes at least
one byte, as it does for a non-empty buffer; the handlers are total functions of their
scripts. -/
theorem C12_output_queue_bounded (s : TCPServer) (fd : Int) (invs : List Invocation)
    (hq0 : s.queue fd = some []) (hr0 : bytesRead fd s.io = [])
    (hs0 : bytesSent fd s.io = []) (hwf : ∀ inv ∈ invs, inv.readsBounded) :
    (∀ q, (s.invokeAll invs).queue fd = some q →
      q.length ≤ 69631 ∧
      (bytesSent fd (s.invokeAll invs).io).length + q.length
        = (bytesRead fd (s.invokeAll invs).io).length) ∧
    (∀ p, p <+: (s.invokeAll invs).io →
      (bytesRead fd p).length ≤ (bytesSent fd p).length + 69631) ∧
    (∀ (s1 : TCPServer) (os : EpollCtl) (rs : List ReadRes) (ws : List WriteRes),
      readCalls fd (s1.handleClientData os fd rs ws).io ≤ readCalls fd s1.io + 65537) ∧
    (∀ (s1 : TCPServer) (os : EpollCtl) (rs : List ReadRes) (ws : List WriteRes),
      (∀ r ∈ rs, r.bounded) → (∀ w ∈ ws, w ≠ WriteRes.ok 0) →
      writeCalls fd (s1.handleClientData os fd rs ws).io ≤ writeCalls fd s1.io + 69632) := by
  have hinv := invokeAll_peak fd invs s (fresh_streamLaw s fd hq0 hr0 hs0)
    (fresh_peakBound s fd hr0) hwf
  refine ⟨?_, ?_, ?_, ?_⟩
  · intro q hq
    have hlen := streamLaw_length _ fd q hinv.1 hq
    have hp := hinv.2 _ (List.prefix_refl _)
    exact ⟨by omega, hlen⟩
  · intro p hp
    exact hinv.2 p hp
  · intro s1 os rs ws
    exact (handleClientData_calls s1 os fd fd rs ws).1
  · intro s1 os rs ws hb hprog
    exact (handleClientData_calls s1 os fd fd rs ws).2 hb hprog

/-- C12 at a concrete input: descriptor 5 after accept reads "hi" and "!z", one byte
is written and the next write would block: three bytes are queued, four were read and
one was sent. -/
theorem C12_output_queue_bounded_witness :
    accepted5.queue 5 = some [] ∧ bytesRead 5 accepted5.io = [] ∧
    bytesSent 5 accepted5.io = [] ∧
    (accepted5.invokeAll [.data 5 ctlOk [.ok [104, 105], .ok [33, 122]] [.ok 1]]).queue 5
      = some [73, 33, 90] ∧
    ([73, 33, 90] : List Nat).length ≤ 69631 ∧
    (bytesSent 5 (accepted5.invokeAll
        [.data 5 ctlOk [.ok [104, 105], .ok [33, 122]] [.ok 1]]).io).length
        + ([73, 33, 90] : List Nat).length
      = (bytesRead 5 (accepted5.invokeAll
        [.data 5 ctlOk [.ok [104, 105], .ok [33, 122]] [.ok 1]]).io).length :=
  ⟨by decide, by decide, by decide, by decide,
    (C12_output_queue_bounded accepted5 5
      [.data 5 ctlOk [.ok [104, 105], .ok [33, 122]] [.ok 1]] (by decide) (by decide)
      (by decide)
      (by
        intro inv hinv
        rw [List.mem_singleton] at hinv
        subst hinv
        intro r hr
        simp only [List.mem_cons, List.mem_singleton, List.not_mem_nil, or_false] at hr
        rcases hr with hr | hr <;> subst hr <;> simp [ReadRes.bounded, TEMP_BUF_SIZE])).1
      [73, 33, 90] (by decide)⟩

end NioReactor
